import Mathlib

/-!
# Verification of the resoscan DSP core

Shallow embedding of the digital-signal-processing pipeline of the resoscan
repository (src/dsp): FFT/IFFT, linear convolution, impulse-response
extraction, RT60 estimation, waterfall computation, peak detection and
microphone-calibration parsing.

Modelling conventions:
* JS `number` values are modelled as exact real numbers (`ℝ`); quantities
  that the code only ever uses as array lengths / indices are `ℕ`, and
  quantities used in exact integer rounding (`Math.round`) are `ℚ`.
* JS thrown errors are modelled with `Except String`; `null` with `Option`.
* In-place Float64Array mutation is modelled by explicit state passing; an
  array is a `List ℝ` at API boundaries and a total function `ℕ → ℂ` inside
  the in-place FFT (out-of-range reads never occur on the in-range indices
  the theorems talk about).
-/

namespace Resoscan

open Complex Real

/-! ## fft.ts : helpers -/

/-- fft.ts `isPowerOfTwo`: `n > 0 && (n & (n - 1)) === 0`. -/
def isPowerOfTwo (n : ℕ) : Bool := decide (0 < n) && (n &&& (n - 1) == 0)

/-- The `while (p < n) p <<= 1` loop of fft.ts `nextPowerOfTwo`.  The source
always starts at `p = 1`; the `0 < p` guard only makes the recursion
well-founded and is never reached from the entry point. -/
def nextPowAux (n p : ℕ) : ℕ :=
  if h : 0 < p ∧ p < n then nextPowAux n (2 * p) else p
termination_by n - p
decreasing_by omega

/-- fft.ts `nextPowerOfTwo`: returns 1 for `n ≤ 1`, else doubles `p` from 1
until `p ≥ n`. -/
def nextPowerOfTwo (n : ℕ) : ℕ := if n ≤ 1 then 1 else nextPowAux n 1

/-- The loop of fft.ts `reverseBits`: `result = (result << 1) | (x & 1);
x >>= 1`, once per bit (the OR is addition since the shifted low bit is 0). -/
def reverseBitsAux : ℕ → ℕ → ℕ → ℕ
  | 0, _, acc => acc
  | bits + 1, x, acc => reverseBitsAux bits (x / 2) (2 * acc + x % 2)

/-- fft.ts `reverseBits(x, bits)`. -/
def reverseBits (x bits : ℕ) : ℕ := reverseBitsAux bits x 0

/-- Accumulator-free recursion computing the same bit reversal: the low bit
of `x` lands on top. -/
def revBits : ℕ → ℕ → ℕ
  | 0, _ => 0
  | k + 1, x => x % 2 * 2 ^ k + revBits k (x / 2)

lemma reverseBitsAux_eq (k : ℕ) : ∀ x acc, reverseBitsAux k x acc = acc * 2 ^ k + revBits k x := by
  induction k with
  | zero => intro x acc; simp [reverseBitsAux, revBits]
  | succ k ih =>
    intro x acc
    rw [reverseBitsAux, ih, revBits]
    ring

lemma reverseBits_eq_revBits (x bits : ℕ) : reverseBits x bits = revBits bits x := by
  simp [reverseBits, reverseBitsAux_eq]

lemma revBits_lt (k : ℕ) : ∀ x, revBits k x < 2 ^ k := by
  induction k with
  | zero => intro x; simp [revBits]
  | succ k ih =>
    intro x
    have h1 : x % 2 ≤ 1 := by omega
    have h2 : revBits k (x / 2) < 2 ^ k := ih (x / 2)
    have h3 : x % 2 * 2 ^ k ≤ 2 ^ k := by
      calc x % 2 * 2 ^ k ≤ 1 * 2 ^ k := Nat.mul_le_mul_right _ h1
      _ = 2 ^ k := one_mul _
    have : revBits (k + 1) x = x % 2 * 2 ^ k + revBits k (x / 2) := rfl
    rw [this, pow_succ]
    omega

lemma revBits_append_top (k : ℕ) : ∀ r b, r < 2 ^ k → b ≤ 1 →
    revBits (k + 1) (r + b * 2 ^ k) = 2 * revBits k r + b := by
  induction k with
  | zero =>
    intro r b hr hb
    interval_cases r
    interval_cases b <;> simp [revBits]
  | succ k ih =>
    intro r b hr hb
    have hmod : (r + b * 2 ^ (k + 1)) % 2 = r % 2 := by
      have : r + b * 2 ^ (k + 1) = r + b * 2 ^ k * 2 := by ring
      rw [this, Nat.add_mul_mod_self_right]
    have hdiv : (r + b * 2 ^ (k + 1)) / 2 = r / 2 + b * 2 ^ k := by
      have : r + b * 2 ^ (k + 1) = r + b * 2 ^ k * 2 := by ring
      rw [this, Nat.add_mul_div_right _ _ (by norm_num : (0:ℕ) < 2)]
    have hr2 : r / 2 < 2 ^ k := by
      have h2e : 2 ^ (k + 1) = 2 * 2 ^ k := by ring
      omega
    rw [revBits, hmod, hdiv, ih (r / 2) b (by omega) hb, revBits]
    ring

lemma revBits_involution (k : ℕ) : ∀ x, x < 2 ^ k → revBits k (revBits k x) = x := by
  induction k with
  | zero => intro x hx; interval_cases x; simp [revBits]
  | succ k ih =>
    intro x hx
    have hxdiv : x / 2 < 2 ^ k := by
      rw [pow_succ] at hx
      omega
    have h1 : revBits (k + 1) x = revBits k (x / 2) + x % 2 * 2 ^ k := by
      rw [revBits]; ring
    rw [h1, revBits_append_top k _ _ (revBits_lt k _) (by omega), ih _ hxdiv]
    omega

lemma revBits_two_mul (k B : ℕ) : revBits (k + 1) (2 * B) = revBits k B := by
  have h1 : 2 * B % 2 = 0 := by omega
  have h2 : 2 * B / 2 = B := by omega
  rw [revBits, h1, h2]
  simp

lemma revBits_two_mul_add_one (k B : ℕ) :
    revBits (k + 1) (2 * B + 1) = 2 ^ k + revBits k B := by
  have h1 : (2 * B + 1) % 2 = 1 := by omega
  have h2 : (2 * B + 1) / 2 = B := by omega
  rw [revBits, h1, h2]
  ring

/-! ## fft.ts : the in-place FFT

The butterfly loop mutates `re`/`im` in place, but within one pass every
index belongs to exactly one `(even, odd)` pair and both slots of a pair are
rewritten from the pair's own previous values only (`re[odd]` is written
first, from the old `re[even]`), so one pass is the pointwise map
`butterflyPass`.  The running twiddle factor starts at `1` and is multiplied
by `w = cos(-2π/size) + i·sin(-2π/size) = exp(-2πi/size)` once per step, so
at step `j` it is exactly `twiddle size ^ j` in exact arithmetic. -/

/-- Base twiddle factor of a pass: `exp(i · (-2π / size))`. -/
noncomputable def twiddle (size : ℕ) : ℂ :=
  Complex.exp (-2 * Real.pi * Complex.I / size)

/-- One butterfly pass of fft.ts (one iteration of the `size` loop), as a
pointwise map.  At index `i` with `j = i % size`: slots with `j < size/2`
are "even" slots (`start + j` in the source), the others "odd" slots. -/
noncomputable def butterflyPass (size : ℕ) (v : ℕ → ℂ) : ℕ → ℂ := fun i =>
  let half := size / 2
  let j := i % size
  if j < half then v i + twiddle size ^ j * v (i + half)
  else v (i - half) - twiddle size ^ (j - half) * v i

/-- The size-doubling loop of fft.ts `fft`: passes with size 2, 4, …, 2^bits. -/
noncomputable def fftPasses : ℕ → (ℕ → ℂ) → (ℕ → ℂ)
  | 0, v => v
  | p + 1, v => butterflyPass (2 ^ (p + 1)) (fftPasses p v)

/-- Swap of two array slots (fft.ts `bitReverse` swap body, on re and im
simultaneously — a complex value packs the `re`/`im` pair). -/
def swapAt (a : ℕ → ℂ) (i j : ℕ) : ℕ → ℂ := fun k =>
  if k = i then a j else if k = j then a i else a k

/-- Body of the fft.ts `bitReverse` loop at index `i`: swap `a[i] ↔ a[j]`
for `j = reverseBits(i, bits)` when `j > i`. -/
def brStep (bits : ℕ) (acc : ℕ → ℂ) (i : ℕ) : ℕ → ℂ :=
  let j := reverseBits i bits
  if i < j then swapAt acc i j else acc

/-- fft.ts `bitReverse`: the swap loop over i = 0..N-1. -/
def bitReverseLoop (N bits : ℕ) (a : ℕ → ℂ) : ℕ → ℂ :=
  (List.range N).foldl (brStep bits) a

/-- fft.ts `fft` body once the guards have passed (`N = 2^bits ≥ 2`):
bit-reversal permutation, then the butterfly passes. -/
noncomputable def fftCore (bits : ℕ) (v : ℕ → ℂ) : ℕ → ℂ :=
  fftPasses bits (bitReverseLoop (2 ^ bits) bits v)

/-! ## fft.ts : list-level wrappers -/

/-- fft.ts `fft(re, im)`: validates lengths and the power-of-two precondition,
returns the transformed pair (the source mutates its arguments in place; the
model returns the final state). -/
noncomputable def fft (re im : List ℝ) : Except String (List ℝ × List ℝ) :=
  let N := re.length
  if N ≠ im.length then .error "re and im must have the same length"
  else if !isPowerOfTwo N then .error s!"FFT length must be a power of two, got {N}"
  else if N ≤ 1 then .ok (re, im)
  else
    let v : ℕ → ℂ := fun n => ⟨re.getD n 0, im.getD n 0⟩
    let w := fftCore N.log2 v
    .ok ((List.range N).map fun i => (w i).re, (List.range N).map fun i => (w i).im)

/-- fft.ts `ifft(re, im)`: conjugate, forward fft, conjugate and scale by 1/N.
The 1/N scaling is only reached when `fft` did not throw, hence N ≥ 1. -/
noncomputable def ifft (re im : List ℝ) : Except String (List ℝ × List ℝ) :=
  let N := re.length
  let im1 := im.map fun x => -x
  match fft re im1 with
  | .error e => .error e
  | .ok (re2, im2) =>
    let invN : ℝ := 1 / N
    .ok (re2.map fun x => x * invN, im2.map fun x => -x * invN)

/-- fft.ts `realToComplex(signal, length?)`: zero-pad a real signal into split
re/im buffers of the requested (or next power-of-two) length. -/
def realToComplex (signal : List ℝ) (len? : Option ℕ) :
    Except String (List ℝ × List ℝ) :=
  let N := len?.getD (nextPowerOfTwo signal.length)
  if !isPowerOfTwo N then .error s!"FFT length must be a power of two, got {N}"
  else
    let copyLen := min signal.length N
    .ok ((List.range N).map (fun i => if i < copyLen then signal.getD i 0 else 0),
         List.replicate N 0)

/-! The swap loop realises the bit-reversal permutation: each pair
`{i, revBits bits i}` with distinct members is swapped exactly once (at the
iteration of its smaller member), fixed points are never touched. -/

lemma bitReverseLoop_prefix (bits : ℕ) (a : ℕ → ℂ) :
    ∀ n, n ≤ 2 ^ bits → ∀ x,
      (List.range n).foldl (brStep bits) a x =
        if x < 2 ^ bits ∧ min x (revBits bits x) < n then a (revBits bits x) else a x := by
  intro n
  induction n with
  | zero => intro _ x; simp
  | succ n ih =>
    intro hn x
    have hnN : n < 2 ^ bits := hn
    have hs : (List.range (n + 1)).foldl (brStep bits) a =
        brStep bits ((List.range n).foldl (brStep bits) a) n := by
      rw [List.range_succ, List.foldl_append, List.foldl_cons, List.foldl_nil]
    set j := revBits bits n with hj
    have hjN : j < 2 ^ bits := revBits_lt bits n
    have hrevn : revBits bits j = n := revBits_involution bits n hnN
    have hstep : (List.range (n + 1)).foldl (brStep bits) a x =
        brStep bits ((List.range n).foldl (brStep bits) a) n x := by rw [hs]
    rw [hstep, brStep, reverseBits_eq_revBits, ← hj]
    by_cases hlt : n < j
    · -- the pair (n, j) is swapped at this iteration
      rw [if_pos hlt]
      rw [swapAt]
      by_cases hxn : x = n
      · -- slot x = n receives the old a[j]
        have hjcond : ¬ (j < 2 ^ bits ∧ min j (revBits bits j) < n) := by
          rw [hrevn]
          have := min_le_right j n
          omega
        rw [if_pos hxn, ih (le_of_lt hn) j, if_neg hjcond, hxn,
          if_pos ⟨hnN, by rw [← hj]; have := min_le_left n j; omega⟩, ← hj]
      · by_cases hxj : x = j
        · -- slot x = j receives the old a[n]
          have hncond : ¬ (n < 2 ^ bits ∧ min n (revBits bits n) < n) := by
            rw [← hj]
            have := min_le_left n j
            omega
          rw [if_neg hxn, if_pos hxj, ih (le_of_lt hn) n, if_neg hncond, hxj, hrevn,
            if_pos ⟨hjN, by have := min_le_right j n; omega⟩]
        · -- untouched slot
          rw [if_neg hxn, if_neg hxj, ih (le_of_lt hn) x]
          by_cases hxN : x < 2 ^ bits
          · have hxrev : revBits bits (revBits bits x) = x := revBits_involution bits x hxN
            have hne : min x (revBits bits x) ≠ n := by
              rcases le_total x (revBits bits x) with h | h
              · rw [min_eq_left h]; omega
              · rw [min_eq_right h]
                intro hc
                exact hxj (by rw [← hxrev, hc, hj])
            by_cases hcond : min x (revBits bits x) < n
            · rw [if_pos ⟨hxN, hcond⟩, if_pos ⟨hxN, by omega⟩]
            · rw [if_neg (by tauto), if_neg (by rw [not_and]; intro; omega)]
          · rw [if_neg (by tauto), if_neg (by tauto)]
    · -- j ≤ n : either already swapped (j < n) or a fixed point (j = n)
      rw [if_neg hlt, ih (le_of_lt hn) x]
      by_cases hxn : x = n
      · by_cases hjn : j = n
        · -- fixed point: both sides read a[x] = a[revBits x]
          have hrx : revBits bits x = x := by rw [hxn, ← hj, hjn]
          rw [hrx]
          by_cases hc : min x x < n
          · rw [if_pos ⟨by omega, hc⟩, if_pos ⟨by omega, by omega⟩]
          · rw [if_neg (by tauto), if_pos ⟨by omega, by simp; omega⟩]
        · -- already swapped at iteration j < n
          have hjlt : j < n := by omega
          have hminx : min x (revBits bits x) = j := by
            rw [hxn, ← hj]
            omega
          rw [if_pos ⟨by omega, by omega⟩, if_pos ⟨by omega, by omega⟩]
      · by_cases hxN : x < 2 ^ bits
        · have hxrev : revBits bits (revBits bits x) = x := revBits_involution bits x hxN
          have hne : min x (revBits bits x) ≠ n := by
            rcases le_total x (revBits bits x) with h | h
            · rw [min_eq_left h]; omega
            · rw [min_eq_right h]
              intro hc
              -- rev x = n forces x = rev n = j ≤ n and n ≤ x, so x = n
              have hxj : x = j := by rw [← hxrev, hc, hj]
              rw [hc] at h
              omega
          by_cases hcond : min x (revBits bits x) < n
          · rw [if_pos ⟨hxN, hcond⟩, if_pos ⟨hxN, by omega⟩]
          · rw [if_neg (by tauto), if_neg (by rw [not_and]; intro; omega)]
        · rw [if_neg (by tauto), if_neg (by tauto)]

/-- The fft.ts swap loop equals the bit-reversal permutation on in-range
indices. -/
lemma bitReverseLoop_apply (bits : ℕ) (a : ℕ → ℂ) (x : ℕ) (hx : x < 2 ^ bits) :
    bitReverseLoop (2 ^ bits) bits a x = a (revBits bits x) := by
  rw [bitReverseLoop, bitReverseLoop_prefix bits a (2 ^ bits) le_rfl x,
    if_pos ⟨hx, by have := min_le_left x (revBits bits x); omega⟩]

/-! ## Exact-arithmetic facts about the twiddle factors -/

lemma twiddle_eq_inv (N : ℕ) :
    twiddle N = (Complex.exp (2 * Real.pi * Complex.I / N))⁻¹ := by
  rw [twiddle, ← Complex.exp_neg]
  congr 1
  ring

lemma twiddle_isPrimitiveRoot (N : ℕ) (hN : N ≠ 0) :
    IsPrimitiveRoot (twiddle N) N := by
  rw [twiddle_eq_inv]
  exact (Complex.isPrimitiveRoot_exp N hN).inv

lemma twiddle_pow_self (N : ℕ) (hN : N ≠ 0) : twiddle N ^ N = 1 :=
  (twiddle_isPrimitiveRoot N hN).pow_eq_one

lemma twiddle_sq (s : ℕ) (hs : s ≠ 0) : twiddle (2 * s) ^ 2 = twiddle s := by
  rw [twiddle, twiddle, ← Complex.exp_nat_mul]
  congr 1
  have hsC : (s : ℂ) ≠ 0 := Nat.cast_ne_zero.mpr hs
  push_cast
  field_simp
  ring

lemma twiddle_pow_half (s : ℕ) (hs : s ≠ 0) : twiddle (2 * s) ^ s = -1 := by
  rw [twiddle, ← Complex.exp_nat_mul]
  have hsC : (s : ℂ) ≠ 0 := Nat.cast_ne_zero.mpr hs
  have harg : (s : ℂ) * (-2 * Real.pi * Complex.I / ((2 * s : ℕ) : ℂ)) =
      -(Real.pi * Complex.I) := by
    push_cast
    field_simp
    ring
  rw [harg, Complex.exp_neg, Complex.exp_pi_mul_I]
  norm_num

lemma twiddle_sum_orthogonal (N d : ℕ) (hN : N ≠ 0) :
    ∑ k ∈ Finset.range N, twiddle N ^ (k * d) = if N ∣ d then (N : ℂ) else 0 := by
  by_cases hdvd : N ∣ d
  · obtain ⟨c, rfl⟩ := hdvd
    rw [if_pos ⟨c, rfl⟩]
    have hterm : ∀ k ∈ Finset.range N, twiddle N ^ (k * (N * c)) = 1 := by
      intro k _
      rw [show k * (N * c) = N * (k * c) by ring, pow_mul, twiddle_pow_self N hN, one_pow]
    rw [Finset.sum_congr rfl hterm]
    simp
  · rw [if_neg hdvd]
    have hx : twiddle N ^ d ≠ 1 := by
      intro hc
      exact hdvd (((twiddle_isPrimitiveRoot N hN).pow_eq_one_iff_dvd d).mp hc)
    have hterm : ∀ k ∈ Finset.range N, twiddle N ^ (k * d) = (twiddle N ^ d) ^ k := by
      intro k _
      rw [← pow_mul, mul_comm]
    rw [Finset.sum_congr rfl hterm, geom_sum_eq hx,
      show (twiddle N ^ d) ^ N = (twiddle N ^ N) ^ d by rw [← pow_mul, ← pow_mul, mul_comm],
      twiddle_pow_self N hN, one_pow, sub_self, zero_div]

/-! ## The discrete Fourier transform (reference semantics) -/

/-- The plain DFT with the sign convention of fft.ts:
`X[k] = Σ_n x[n]·exp(-2πi·k·n/N)`. -/
noncomputable def dft (N : ℕ) (x : ℕ → ℂ) (k : ℕ) : ℂ :=
  ∑ n ∈ Finset.range N, x n * twiddle N ^ (k * n)

lemma dft_congr (N : ℕ) (x y : ℕ → ℂ) (h : ∀ n, n < N → x n = y n) (k : ℕ) :
    dft N x k = dft N y k := by
  unfold dft
  refine Finset.sum_congr rfl fun n hn => ?_
  rw [h n (Finset.mem_range.mp hn)]

lemma sum_range_even_odd (n : ℕ) (f : ℕ → ℂ) :
    ∑ u ∈ Finset.range (2 * n), f u =
      (∑ t ∈ Finset.range n, f (2 * t)) + ∑ t ∈ Finset.range n, f (2 * t + 1) := by
  induction n with
  | zero => simp
  | succ n ih =>
    rw [show 2 * (n + 1) = 2 * n + 1 + 1 by ring, Finset.sum_range_succ,
      Finset.sum_range_succ, ih, Finset.sum_range_succ, Finset.sum_range_succ]
    ring

/-! ## Correctness of the butterfly passes -/

lemma block_bound (m p i : ℕ) (hp : p + 1 ≤ m) (hi : i < 2 ^ m) :
    2 ^ (p + 1) * (i / 2 ^ (p + 1)) + 2 ^ (p + 1) ≤ 2 ^ m := by
  have hpos : 0 < 2 ^ (p + 1) := Nat.pos_pow_of_pos _ (by norm_num)
  have hpow : 2 ^ (p + 1) * 2 ^ (m - (p + 1)) = 2 ^ m := by
    rw [← pow_add]
    congr 1
    omega
  have hqlt : i / 2 ^ (p + 1) < 2 ^ (m - (p + 1)) := by
    rw [Nat.div_lt_iff_lt_mul hpos, mul_comm, hpow]
    exact hi
  calc 2 ^ (p + 1) * (i / 2 ^ (p + 1)) + 2 ^ (p + 1)
      = 2 ^ (p + 1) * (i / 2 ^ (p + 1) + 1) := by ring
    _ ≤ 2 ^ (p + 1) * 2 ^ (m - (p + 1)) := Nat.mul_le_mul_left _ (by omega)
    _ = 2 ^ m := hpow

/-- Values of `fftPasses p` at an in-range index depend only on the in-range
values of its input: every butterfly pairs an index with a partner inside the
same block of size 2^(p+1) ≤ 2^m. -/
lemma fftPasses_congr (m : ℕ) : ∀ p, p ≤ m → ∀ u v : ℕ → ℂ,
    (∀ t, t < 2 ^ m → u t = v t) → ∀ i, i < 2 ^ m →
    fftPasses p u i = fftPasses p v i := by
  intro p
  induction p with
  | zero => intro _ u v h i hi; exact h i hi
  | succ p ih =>
    intro hp u v h i hi
    have hp' : p ≤ m := by omega
    have hhalf : 2 ^ (p + 1) / 2 = 2 ^ p := by
      rw [pow_succ]
      omega
    have hdm : 2 ^ (p + 1) * (i / 2 ^ (p + 1)) + i % 2 ^ (p + 1) = i :=
      Nat.div_add_mod i (2 ^ (p + 1))
    have hQq := block_bound m p i hp hi
    simp only [fftPasses, butterflyPass, hhalf]
    by_cases hc : i % 2 ^ (p + 1) < 2 ^ p
    · have hiP : i + 2 ^ p < 2 ^ m := by
        have h2 : 2 ^ (p + 1) = 2 * 2 ^ p := by rw [pow_succ]; ring
        set T := 2 ^ (p + 1) * (i / 2 ^ (p + 1))
        omega
      rw [if_pos hc, if_pos hc, ih hp' u v h i hi, ih hp' u v h (i + 2 ^ p) hiP]
    · have hiP : i - 2 ^ p < 2 ^ m := by omega
      rw [if_neg hc, if_neg hc, ih hp' u v h i hi, ih hp' u v h (i - 2 ^ p) hiP]

/-- Even/odd split of a sum over `range n2` when `n2 = 2 * n` (stated with the
bound as a hypothesis so that rewriting it does not disturb the summand). -/
lemma sum_range_even_odd' (n2 n : ℕ) (h : n2 = 2 * n) (f : ℕ → ℂ) :
    ∑ u ∈ Finset.range n2, f u =
      (∑ t ∈ Finset.range n, f (2 * t)) + ∑ t ∈ Finset.range n, f (2 * t + 1) := by
  rw [h]
  exact sum_range_even_odd n f

/-- The classic Cooley–Tukey invariant: after the bit-reversal permutation
and the passes of sizes 2..2^p, index i holds the 2^p-point DFT (at offset
`i % 2^p`) of the stride-2^(m-p) subsequence of the input starting at the
bit-reversed block number of i. -/
lemma fftPasses_invariant (m : ℕ) (x : ℕ → ℂ) : ∀ p, p ≤ m → ∀ i, i < 2 ^ m →
    fftPasses p (fun t => x (revBits m t)) i =
      ∑ t ∈ Finset.range (2 ^ p),
        x (revBits (m - p) (i / 2 ^ p) + t * 2 ^ (m - p)) *
          twiddle (2 ^ p) ^ (i % 2 ^ p * t) := by
  intro p
  induction p with
  | zero =>
    intro _ i _
    simp [fftPasses]
  | succ p ih =>
    intro hp i hi
    have hp' : p ≤ m := by omega
    have hPpos : 0 < 2 ^ p := pow_pos (by norm_num) p
    have hPne : (2:ℕ) ^ p ≠ 0 := by omega
    have hQ : (2:ℕ) ^ (p + 1) = 2 * 2 ^ p := by rw [pow_succ]; ring
    have hQne : (2:ℕ) ^ (p + 1) ≠ 0 := by positivity
    have hhalf : 2 ^ (p + 1) / 2 = 2 ^ p := by omega
    have hdm : 2 ^ (p + 1) * (i / 2 ^ (p + 1)) + i % 2 ^ (p + 1) = i :=
      Nat.div_add_mod i (2 ^ (p + 1))
    have hjQ : i % 2 ^ (p + 1) < 2 ^ (p + 1) := Nat.mod_lt _ (by positivity)
    have hmp : m - p = (m - (p + 1)) + 1 := by omega
    have hpow_split : (2:ℕ) ^ (m - p) = 2 * 2 ^ (m - (p + 1)) := by
      rw [hmp, pow_succ]
      ring
    have hQq := block_bound m p i hp hi
    have h2 : twiddle (2 ^ (p + 1)) ^ 2 = twiddle (2 ^ p) := by
      rw [hQ]
      exact twiddle_sq _ hPne
    simp only [fftPasses, butterflyPass, hhalf]
    by_cases hc : i % 2 ^ (p + 1) < 2 ^ p
    · -- even slot: i = 2^(p+1)·q + j with j < 2^p
      have hiP : i + 2 ^ p < 2 ^ m := by
        set T := 2 ^ (p + 1) * (i / 2 ^ (p + 1))
        omega
      have e0 : 2 ^ (p + 1) * (i / 2 ^ (p + 1)) = 2 ^ p * (2 * (i / 2 ^ (p + 1))) := by
        rw [hQ]; ring
      have e1 : i % 2 ^ p = i % 2 ^ (p + 1) := by
        conv_lhs => rw [← hdm]
        rw [e0, Nat.mul_add_mod, Nat.mod_eq_of_lt hc]
      have e2 : i / 2 ^ p = 2 * (i / 2 ^ (p + 1)) := by
        conv_lhs => rw [← hdm]
        rw [e0, Nat.mul_add_div hPpos, Nat.div_eq_of_lt hc, Nat.add_zero]
      have e3 : (i + 2 ^ p) % 2 ^ p = i % 2 ^ (p + 1) := by
        conv_lhs => rw [← hdm]
        rw [e0, show 2 ^ p * (2 * (i / 2 ^ (p + 1))) + i % 2 ^ (p + 1) + 2 ^ p =
          2 ^ p * (2 * (i / 2 ^ (p + 1)) + 1) + i % 2 ^ (p + 1) by ring,
          Nat.mul_add_mod, Nat.mod_eq_of_lt hc]
      have e4 : (i + 2 ^ p) / 2 ^ p = 2 * (i / 2 ^ (p + 1)) + 1 := by
        conv_lhs => rw [← hdm]
        rw [e0, show 2 ^ p * (2 * (i / 2 ^ (p + 1))) + i % 2 ^ (p + 1) + 2 ^ p =
          2 ^ p * (2 * (i / 2 ^ (p + 1)) + 1) + i % 2 ^ (p + 1) by ring,
          Nat.mul_add_div hPpos, Nat.div_eq_of_lt hc, Nat.add_zero]
      have rA : revBits (m - p) (2 * (i / 2 ^ (p + 1))) =
          revBits (m - (p + 1)) (i / 2 ^ (p + 1)) := by
        rw [hmp, revBits_two_mul]
      have rB : revBits (m - p) (2 * (i / 2 ^ (p + 1)) + 1) =
          2 ^ (m - (p + 1)) + revBits (m - (p + 1)) (i / 2 ^ (p + 1)) := by
        rw [hmp, revBits_two_mul_add_one]
      have hIH1 := ih hp' i hi
      have hIH2 := ih hp' (i + 2 ^ p) hiP
      rw [e1, e2, rA] at hIH1
      rw [e3, e4, rB] at hIH2
      rw [if_pos hc, hIH1, hIH2, sum_range_even_odd' (2 ^ (p + 1)) (2 ^ p) hQ]
      have hEven : ∀ t ∈ Finset.range (2 ^ p),
          x (revBits (m - (p + 1)) (i / 2 ^ (p + 1)) + 2 * t * 2 ^ (m - (p + 1))) *
              twiddle (2 ^ (p + 1)) ^ (i % 2 ^ (p + 1) * (2 * t)) =
            x (revBits (m - (p + 1)) (i / 2 ^ (p + 1)) + t * 2 ^ (m - p)) *
              twiddle (2 ^ p) ^ (i % 2 ^ (p + 1) * t) := by
        intro t _
        congr 1
        · congr 2
          rw [hpow_split]
          ring
        · rw [← h2, ← pow_mul]
          congr 1
          ring
      have hOdd : ∀ t ∈ Finset.range (2 ^ p),
          x (revBits (m - (p + 1)) (i / 2 ^ (p + 1)) + (2 * t + 1) * 2 ^ (m - (p + 1))) *
              twiddle (2 ^ (p + 1)) ^ (i % 2 ^ (p + 1) * (2 * t + 1)) =
            twiddle (2 ^ (p + 1)) ^ (i % 2 ^ (p + 1)) *
              (x (2 ^ (m - (p + 1)) + revBits (m - (p + 1)) (i / 2 ^ (p + 1)) +
                  t * 2 ^ (m - p)) *
                twiddle (2 ^ p) ^ (i % 2 ^ (p + 1) * t)) := by
        intro t _
        have harg : revBits (m - (p + 1)) (i / 2 ^ (p + 1)) + (2 * t + 1) * 2 ^ (m - (p + 1)) =
            2 ^ (m - (p + 1)) + revBits (m - (p + 1)) (i / 2 ^ (p + 1)) + t * 2 ^ (m - p) := by
          rw [hpow_split]
          ring
        rw [harg, show i % 2 ^ (p + 1) * (2 * t + 1) =
            2 * (i % 2 ^ (p + 1) * t) + i % 2 ^ (p + 1) by ring,
          pow_add, ← h2, ← pow_mul]
        ring
      rw [Finset.sum_congr rfl hEven, Finset.sum_congr rfl hOdd, ← Finset.mul_sum]
    · -- odd slot: i = 2^(p+1)·q + 2^p + j'
      have hple : 2 ^ p ≤ i % 2 ^ (p + 1) := by omega
      obtain ⟨j', hj'⟩ := Nat.exists_eq_add_of_le hple
      have hj'lt : j' < 2 ^ p := by omega
      have hPi : 2 ^ p ≤ i := by
        have := Nat.mod_le i (2 ^ (p + 1))
        omega
      obtain ⟨k, hk⟩ := Nat.exists_eq_add_of_le hPi
      have hiP : k < 2 ^ m := by omega
      set A := 2 ^ (p + 1) * (i / 2 ^ (p + 1)) with hA
      set B := 2 ^ p * (2 * (i / 2 ^ (p + 1))) with hB
      have eAB : A = B := by rw [hA, hB, hQ]; ring
      have hk2 : k = B + j' := by omega
      have o1 : k % 2 ^ p = j' := by
        rw [hk2, hB, Nat.mul_add_mod, Nat.mod_eq_of_lt hj'lt]
      have o2 : k / 2 ^ p = 2 * (i / 2 ^ (p + 1)) := by
        rw [hk2, hB, Nat.mul_add_div hPpos, Nat.div_eq_of_lt hj'lt, Nat.add_zero]
      have hi2 : i = 2 ^ p * (2 * (i / 2 ^ (p + 1)) + 1) + j' := by
        have expand : 2 ^ p * (2 * (i / 2 ^ (p + 1)) + 1) = B + 2 ^ p := by
          rw [hB]; ring
        omega
      have o3 : i % 2 ^ p = j' := by
        conv_lhs => rw [hi2]
        rw [Nat.mul_add_mod, Nat.mod_eq_of_lt hj'lt]
      have o4 : i / 2 ^ p = 2 * (i / 2 ^ (p + 1)) + 1 := by
        conv_lhs => rw [hi2]
        rw [Nat.mul_add_div hPpos, Nat.div_eq_of_lt hj'lt, Nat.add_zero]
      have rA : revBits (m - p) (2 * (i / 2 ^ (p + 1))) =
          revBits (m - (p + 1)) (i / 2 ^ (p + 1)) := by
        rw [hmp, revBits_two_mul]
      have rB : revBits (m - p) (2 * (i / 2 ^ (p + 1)) + 1) =
          2 ^ (m - (p + 1)) + revBits (m - (p + 1)) (i / 2 ^ (p + 1)) := by
        rw [hmp, revBits_two_mul_add_one]
      have hIH1 := ih hp' k hiP
      have hIH2 := ih hp' i hi
      rw [o1, o2, rA] at hIH1
      rw [o3, o4, rB] at hIH2
      have hsub : i - 2 ^ p = k := by omega
      rw [if_neg hc, hsub, hIH1, hIH2, hj',
        Nat.add_sub_cancel_left, sum_range_even_odd' (2 ^ (p + 1)) (2 ^ p) hQ]
      have hm1 : twiddle (2 ^ (p + 1)) ^ 2 ^ p = -1 := by
        rw [hQ]
        exact twiddle_pow_half _ hPne
      have hEven : ∀ t ∈ Finset.range (2 ^ p),
          x (revBits (m - (p + 1)) (i / 2 ^ (p + 1)) + 2 * t * 2 ^ (m - (p + 1))) *
              twiddle (2 ^ (p + 1)) ^ ((2 ^ p + j') * (2 * t)) =
            x (revBits (m - (p + 1)) (i / 2 ^ (p + 1)) + t * 2 ^ (m - p)) *
              twiddle (2 ^ p) ^ (j' * t) := by
        intro t _
        congr 1
        · congr 2
          rw [hpow_split]
          ring
        · rw [show (2 ^ p + j') * (2 * t) = 2 ^ (p + 1) * t + 2 * (j' * t) by
              rw [hQ]; ring,
            pow_add, pow_mul, twiddle_pow_self _ hQne, one_pow, one_mul,
            ← h2, ← pow_mul]
      have hOdd : ∀ t ∈ Finset.range (2 ^ p),
          x (revBits (m - (p + 1)) (i / 2 ^ (p + 1)) + (2 * t + 1) * 2 ^ (m - (p + 1))) *
              twiddle (2 ^ (p + 1)) ^ ((2 ^ p + j') * (2 * t + 1)) =
            -(twiddle (2 ^ (p + 1)) ^ j' *
              (x (2 ^ (m - (p + 1)) + revBits (m - (p + 1)) (i / 2 ^ (p + 1)) +
                  t * 2 ^ (m - p)) *
                twiddle (2 ^ p) ^ (j' * t))) := by
        intro t _
        have harg : revBits (m - (p + 1)) (i / 2 ^ (p + 1)) + (2 * t + 1) * 2 ^ (m - (p + 1)) =
            2 ^ (m - (p + 1)) + revBits (m - (p + 1)) (i / 2 ^ (p + 1)) + t * 2 ^ (m - p) := by
          rw [hpow_split]
          ring
        have hpw : twiddle (2 ^ (p + 1)) ^ ((2 ^ p + j') * (2 * t + 1)) =
            -(twiddle (2 ^ (p + 1)) ^ j' * twiddle (2 ^ p) ^ (j' * t)) := by
          set w := twiddle (2 ^ (p + 1)) with hw
          rw [show (2 ^ p + j') * (2 * t + 1) = 2 ^ p * (2 * t + 1) + (2 * (j' * t) + j')
              by ring,
            pow_add, pow_mul, hm1, Odd.neg_one_pow ⟨t, by ring⟩, pow_add, pow_mul, h2]
          ring
        rw [harg, hpw]
        ring
      rw [Finset.sum_congr rfl hEven, Finset.sum_congr rfl hOdd,
        Finset.sum_neg_distrib, ← Finset.mul_sum]
      ring

/-- fft.ts computes the DFT: bit-reversal plus all passes equals `dft` on
every in-range index. -/
lemma fftCore_eq_dft (m : ℕ) (v : ℕ → ℂ) (i : ℕ) (hi : i < 2 ^ m) :
    fftCore m v i = dft (2 ^ m) v i := by
  rw [fftCore,
    fftPasses_congr m m le_rfl (bitReverseLoop (2 ^ m) m v) (fun t => v (revBits m t))
      (fun t ht => bitReverseLoop_apply m v t ht) i hi,
    fftPasses_invariant m v m le_rfl i hi, dft]
  refine Finset.sum_congr rfl fun t ht => ?_
  rw [Nat.div_eq_of_lt hi, Nat.mod_eq_of_lt hi, Nat.sub_self]
  norm_num [revBits]

lemma delta_dvd (N n i : ℕ) (hn : n < N) (hi : i < N) :
    N ∣ (n + (N - 1) * i) ↔ n = i := by
  have hN1 : 1 ≤ N := by omega
  constructor
  · intro hdvd
    obtain ⟨c, hc⟩ := hdvd
    have hz : (n : ℤ) + ((N : ℤ) - 1) * i = N * c := by
      have := congrArg (fun t : ℕ => (t : ℤ)) hc
      push_cast [Nat.cast_sub hN1] at this
      linarith
    have hni : (n : ℤ) - i = N * (c - i) := by linear_combination hz
    have habs : |(n : ℤ) - i| < N := by
      rw [abs_lt]
      constructor <;> [linarith [hi, (by exact_mod_cast Nat.cast_lt.mpr hi : (i:ℤ) < N),
        (by positivity : (0:ℤ) ≤ n)]; skip]
      have h1 : (n : ℤ) < N := by exact_mod_cast hn
      have h2 : (0 : ℤ) ≤ i := by positivity
      linarith
    by_contra hne
    have hcine : (c : ℤ) - i ≠ 0 := by
      intro h0
      rw [h0, mul_zero, sub_eq_zero] at hni
      exact hne (by exact_mod_cast hni)
    have h1 : (1 : ℤ) ≤ |(c : ℤ) - i| := Int.one_le_abs hcine
    have h2 : |(n : ℤ) - i| = N * |(c : ℤ) - i| := by
      rw [hni, abs_mul, abs_of_nonneg (by positivity : (0:ℤ) ≤ (N:ℤ))]
    nlinarith
  · rintro rfl
    refine ⟨n, ?_⟩
    have h1 : N - 1 + 1 = N := by omega
    calc n + (N - 1) * n = (N - 1 + 1) * n := by ring
      _ = N * n := by rw [h1]

lemma conj_twiddle (N : ℕ) (hN : N ≠ 0) :
    (starRingEnd ℂ) (twiddle N) = twiddle N ^ (N - 1) := by
  have hc : (starRingEnd ℂ) (twiddle N) = Complex.exp (2 * Real.pi * Complex.I / N) := by
    rw [twiddle, ← Complex.exp_conj]
    congr 1
    simp [map_div₀, map_ofNat]
  have hmul : twiddle N * (starRingEnd ℂ) (twiddle N) = 1 := by
    rw [hc, twiddle, ← Complex.exp_add]
    rw [show -2 * (Real.pi : ℂ) * Complex.I / N + 2 * Real.pi * Complex.I / N = 0 by ring]
    exact Complex.exp_zero
  have hpow : twiddle N * twiddle N ^ (N - 1) = 1 := by
    rw [← pow_succ', show N - 1 + 1 = N by omega]
    exact twiddle_pow_self N hN
  calc (starRingEnd ℂ) (twiddle N)
      = (twiddle N * twiddle N ^ (N - 1)) * (starRingEnd ℂ) (twiddle N) := by
        rw [hpow, one_mul]
    _ = (twiddle N * (starRingEnd ℂ) (twiddle N)) * twiddle N ^ (N - 1) := by ring
    _ = twiddle N ^ (N - 1) := by rw [hmul, one_mul]

lemma twiddle_cross_sum (N n i : ℕ) (hN : N ≠ 0) (hn : n < N) (hi : i < N) :
    ∑ k ∈ Finset.range N, (starRingEnd ℂ) (twiddle N) ^ (k * n) * twiddle N ^ (i * k) =
      if i = n then (N : ℂ) else 0 := by
  have hterm : ∀ k ∈ Finset.range N,
      (starRingEnd ℂ) (twiddle N) ^ (k * n) * twiddle N ^ (i * k) =
        twiddle N ^ (k * (i + (N - 1) * n)) := by
    intro k _
    rw [conj_twiddle N hN, ← pow_mul, ← pow_add]
    congr 1
    ring
  rw [Finset.sum_congr rfl hterm, twiddle_sum_orthogonal N (i + (N - 1) * n) hN]
  by_cases h : i = n
  · rw [if_pos ((delta_dvd N i n hi hn).mpr h), if_pos h]
  · rw [if_neg (fun hd => h ((delta_dvd N i n hi hn).mp hd)), if_neg h]

/-- Fourier inversion for the exact DFT: conjugate–transform–conjugate–scale
recovers the input (the identity behind ifft). -/
lemma dft_inversion (N : ℕ) (hN : N ≠ 0) (x : ℕ → ℂ) (i : ℕ) (hi : i < N) :
    dft N (fun n => (starRingEnd ℂ) (dft N x n)) i = N * (starRingEnd ℂ) (x i) := by
  unfold dft
  have hexpand : ∀ k ∈ Finset.range N,
      (starRingEnd ℂ) (∑ n ∈ Finset.range N, x n * twiddle N ^ (k * n)) *
          twiddle N ^ (i * k) =
        ∑ n ∈ Finset.range N,
          (starRingEnd ℂ) (x n) *
            ((starRingEnd ℂ) (twiddle N) ^ (k * n) * twiddle N ^ (i * k)) := by
    intro k _
    rw [map_sum, Finset.sum_mul]
    refine Finset.sum_congr rfl fun n _ => ?_
    rw [map_mul, map_pow]
    ring
  rw [Finset.sum_congr rfl hexpand, Finset.sum_comm]
  have hinner : ∀ n ∈ Finset.range N,
      ∑ k ∈ Finset.range N,
          (starRingEnd ℂ) (x n) *
            ((starRingEnd ℂ) (twiddle N) ^ (k * n) * twiddle N ^ (i * k)) =
        if i = n then (N : ℂ) * (starRingEnd ℂ) (x n) else 0 := by
    intro n hn
    rw [← Finset.mul_sum, twiddle_cross_sum N n i hN (Finset.mem_range.mp hn) hi]
    by_cases h : i = n
    · rw [if_pos h, if_pos h]
      ring
    · rw [if_neg h, if_neg h, mul_zero]
  rw [Finset.sum_congr rfl hinner,
    Finset.sum_ite_eq (Finset.range N) i fun n => (N : ℂ) * (starRingEnd ℂ) (x n),
    if_pos (Finset.mem_range.mpr hi)]

/-! ## List-level plumbing -/

lemma getD_range_map (f : ℕ → ℝ) (N n : ℕ) (hn : n < N) :
    ((List.range N).map f).getD n 0 = f n := by
  rw [List.getD_eq_getElem?_getD, List.getElem?_map, List.getElem?_range hn]
  rfl

lemma getD_replicate_zero (N n : ℕ) : (List.replicate N (0:ℝ)).getD n 0 = 0 := by
  rcases Nat.lt_or_ge n N with h | h
  · rw [List.getD_eq_getElem?_getD, List.getElem?_replicate, if_pos h]
    rfl
  · rw [List.getD_eq_getElem?_getD, List.getElem?_eq_none (by simpa using h)]
    rfl

lemma isPowerOfTwo_two_pow (m : ℕ) : isPowerOfTwo (2 ^ m) = true := by
  unfold isPowerOfTwo
  rw [Bool.and_eq_true, decide_eq_true_eq, beq_iff_eq]
  refine ⟨by positivity, ?_⟩
  refine Nat.eq_of_testBit_eq fun i => ?_
  rw [Nat.testBit_and, Nat.testBit_two_pow, Nat.testBit_two_pow_sub_one, Nat.zero_testBit]
  by_cases h : m = i
  · simp [h]
  · simp [h]

lemma log2_two_pow (m : ℕ) : (2 ^ m).log2 = m := by
  rw [Nat.log2_eq_log_two]
  exact Nat.log_pow (by norm_num) m

/-- On valid inputs of length 2^m ≥ 2, the fft wrapper returns the exact DFT
of the packed complex input. -/
lemma fft_eq_of_two_pow (m : ℕ) (re im : List ℝ) (hre : re.length = 2 ^ m)
    (him : im.length = 2 ^ m) (hm : 1 ≤ m) :
    fft re im = .ok
      ((List.range (2 ^ m)).map fun i =>
        (dft (2 ^ m) (fun n => ⟨re.getD n 0, im.getD n 0⟩) i).re,
       (List.range (2 ^ m)).map fun i =>
        (dft (2 ^ m) (fun n => ⟨re.getD n 0, im.getD n 0⟩) i).im) := by
  have h2m : 2 ≤ 2 ^ m := by
    calc 2 = 2 ^ 1 := rfl
    _ ≤ 2 ^ m := Nat.pow_le_pow_right (by norm_num) hm
  simp only [fft, hre, him]
  rw [if_neg (by simp), if_neg (by simp [isPowerOfTwo_two_pow]), if_neg (by omega)]
  rw [log2_two_pow]
  congr 1
  refine Prod.ext ?_ ?_
  · simp only []
    refine List.map_congr_left fun i hi => ?_
    rw [fftCore_eq_dft m _ i (List.mem_range.mp hi)]
  · simp only []
    refine List.map_congr_left fun i hi => ?_
    rw [fftCore_eq_dft m _ i (List.mem_range.mp hi)]

/-- Claim C1: for every real signal of power-of-two length N (split re/im
buffers with im = 0), applying fft and then ifft reproduces the original
signal exactly over exact real arithmetic (the implementation's 1e-8
floating-point tolerance is the rounding shadow of this exact identity). -/
theorem fft_ifft_roundtrip (m : ℕ) (x : List ℝ) (hx : x.length = 2 ^ m) :
    (fft x (List.replicate x.length 0)).bind (fun p => ifft p.1 p.2) =
      .ok (x, List.replicate x.length 0) := by
  rw [hx]
  rcases Nat.eq_zero_or_pos m with hm | hm
  · -- N = 1: both transforms are no-ops up to the 1/N = 1 scaling
    subst hm
    have hx1 : x.length = 1 := by simpa using hx
    obtain ⟨a, rfl⟩ := List.length_eq_one.mp hx1
    have hone : isPowerOfTwo 1 = true := isPowerOfTwo_two_pow 0
    have hfft1 : fft [a] (List.replicate 1 0) = .ok ([a], List.replicate 1 0) := by
      simp only [fft]
      rw [if_neg (by simp), if_neg (by simp [hone]), if_pos (by simp)]
    rw [pow_zero, hfft1]
    have hrep : List.replicate 1 (0:ℝ) = [0] := rfl
    show ifft [a] (List.replicate 1 0) = Except.ok ([a], List.replicate 1 0)
    rw [ifft, hrep]
    have him1 : List.map (fun v : ℝ => -v) [0] = [0] := by norm_num
    rw [him1]
    have hfft2 : fft [a] [0] = .ok ([a], [0]) := by
      simp only [fft]
      rw [if_neg (by simp), if_neg (by simp [hone]), if_pos (by simp)]
    rw [hfft2]
    norm_num
  · -- N = 2^m ≥ 2
    set N := 2 ^ m with hN
    have hNne : N ≠ 0 := by positivity
    have hNR : (N : ℝ) ≠ 0 := Nat.cast_ne_zero.mpr hNne
    have hv : (fun n => (⟨x.getD n 0, (List.replicate N (0:ℝ)).getD n 0⟩ : ℂ)) =
        fun n => (⟨x.getD n 0, 0⟩ : ℂ) := by
      funext n
      rw [getD_replicate_zero]
    have hfft1 := fft_eq_of_two_pow m x (List.replicate N 0) hx (by simp) hm
    rw [hv] at hfft1
    rw [hfft1]
    set X : ℕ → ℂ := dft N fun n => (⟨x.getD n 0, 0⟩ : ℂ) with hX
    simp only [Except.bind]
    rw [ifft]
    simp only [List.length_map, List.length_range]
    set R : List ℝ := (List.range N).map fun i => (X i).re with hR
    set I2 : List ℝ := (List.range N).map fun i => (X i).im with hI2
    have hRlen : R.length = 2 ^ m := by simp [hR]
    have him1 : I2.map (fun v => -v) = (List.range N).map fun i => -(X i).im := by
      rw [hI2, List.map_map]
      rfl
    have hfft2 := fft_eq_of_two_pow m R (I2.map fun v => -v) hRlen (by simp [hI2]) hm
    have hv2 : ∀ n, n < N →
        (⟨R.getD n 0, (I2.map fun v => -v).getD n 0⟩ : ℂ) = (starRingEnd ℂ) (X n) := by
      intro n hn
      have h1 : R.getD n 0 = (X n).re := by rw [hR]; exact getD_range_map _ N n hn
      have h2 : (I2.map fun v => -v).getD n 0 = -(X n).im := by
        rw [him1]; exact getD_range_map _ N n hn
      rw [h1, h2]
      apply Complex.ext <;> simp
    have hdft2 : ∀ k, k < N → dft N (fun n => (⟨R.getD n 0, (I2.map fun v => -v).getD n 0⟩ : ℂ)) k =
        (N : ℂ) * (starRingEnd ℂ) (⟨x.getD k 0, 0⟩ : ℂ) := by
      intro k hk
      rw [dft_congr N _ (fun n => (starRingEnd ℂ) (X n)) hv2 k]
      rw [hX]
      exact dft_inversion N hNne _ k hk
    rw [hfft2]
    simp only []
    refine congrArg Except.ok (Prod.ext ?_ ?_)
    · -- the real part comes back to x
      simp only []
      refine List.ext_getElem (by simp [hx]) fun k hk1 hk2 => ?_
      have hkN : k < N := by
        simp only [List.length_map, List.length_range] at hk1
        exact hk1
      rw [List.getElem_map, List.getElem_map, List.getElem_range]
      rw [hdft2 k hkN]
      have hre : ((N : ℂ) * (starRingEnd ℂ) (⟨x.getD k 0, 0⟩ : ℂ)).re = N * x.getD k 0 := by
        simp [Complex.mul_re]
      rw [hre, List.getD_eq_getElem x 0 (by omega)]
      simp only [hN]
      have hpow : ((2:ℝ) ^ m) ≠ 0 := by positivity
      push_cast
      field_simp
    · -- the imaginary part comes back to zero
      simp only []
      refine List.ext_getElem (by simp) fun k hk1 hk2 => ?_
      have hkN : k < N := by
        simp only [List.length_map, List.length_range] at hk1
        exact hk1
      rw [List.getElem_map, List.getElem_map, List.getElem_range]
      rw [hdft2 k hkN]
      have him : ((N : ℂ) * (starRingEnd ℂ) (⟨x.getD k 0, 0⟩ : ℂ)).im = 0 := by
        simp [Complex.mul_im]
      rw [him, List.getElem_replicate]
      ring

/-! ## Claim C9 : fft on N = 0 and N = 1 -/

/-- With buffers of length 1 the fft wrapper hits the `N <= 1` early return
and hands the arrays back unchanged. -/
lemma fft_one (re im : List ℝ) (h1 : re.length = 1) (h2 : im.length = 1) :
    fft re im = .ok (re, im) := by
  simp only [fft, h1, h2]
  rw [if_neg (by simp), if_neg (by decide), if_pos (by norm_num)]

/-- Counterexample to claim C9 as stated: with N = 0 (empty equal-length
arrays) fft is not a no-op — `isPowerOfTwo(0)` is false, so the power-of-two
guard throws before the `N <= 1` early return is reached. -/
theorem fft_nil_throws :
    fft ([] : List ℝ) ([] : List ℝ) = .error "FFT length must be a power of two, got 0" := by
  simp only [fft]
  rw [if_neg (by simp), if_pos (by decide)]
  rfl

/-- Claim C9 (amended): fft on re/im arrays of equal length 1 is a no-op that
returns the arrays unchanged; on length 0 it throws the power-of-two range
error instead (`isPowerOfTwo(0)` is false), so the claimed no-op holds only
for N = 1. -/
theorem fft_len_one_noop : ∀ re im : List ℝ,
    (re.length = 1 → im.length = 1 → fft re im = .ok (re, im)) ∧
    (re.length = 0 → im.length = 0 →
      fft re im = .error "FFT length must be a power of two, got 0") := by
  intro re im
  constructor
  · exact fft_one re im
  · intro h1 h2
    have hre : re = [] := List.length_eq_zero.mp h1
    have him : im = [] := List.length_eq_zero.mp h2
    rw [hre, him]
    exact fft_nil_throws

/-- Witness for the amended C9 at a concrete input. -/
theorem fft_len_one_noop_witness :
    fft [(5:ℝ)] [(0:ℝ)] = .ok ([(5:ℝ)], [(0:ℝ)]) :=
  (fft_len_one_noop [(5:ℝ)] [(0:ℝ)]).1 (by norm_num) (by norm_num)

/-! ## convolve.ts -/

lemma nextPowAux_pow (n : ℕ) : ∀ fuel p, n - p ≤ fuel → (∃ k, p = 2 ^ k) →
    ∃ j, nextPowAux n p = 2 ^ j := by
  intro fuel
  induction fuel with
  | zero =>
    intro p h hp
    rw [nextPowAux, dif_neg (by omega)]
    exact hp
  | succ fuel ih =>
    intro p h hp
    rw [nextPowAux]
    by_cases hc : 0 < p ∧ p < n
    · rw [dif_pos hc]
      obtain ⟨k, hk⟩ := hp
      exact ih (2 * p) (by omega) ⟨k + 1, by rw [hk]; ring⟩
    · rw [dif_neg hc]
      exact hp

lemma nextPowerOfTwo_pow (n : ℕ) : ∃ k, nextPowerOfTwo n = 2 ^ k := by
  rw [nextPowerOfTwo]
  by_cases h : n ≤ 1
  · exact ⟨0, by rw [if_pos h]; norm_num⟩
  · rw [if_neg h]
    exact nextPowAux_pow n n 1 (by omega) ⟨0, rfl⟩

lemma realToComplex_ok (signal : List ℝ) (N : ℕ) (h : isPowerOfTwo N = true) :
    realToComplex signal (some N) = .ok
      ((List.range N).map (fun i => if i < min signal.length N then signal.getD i 0 else 0),
       List.replicate N 0) := by
  simp only [realToComplex, Option.getD_some]
  rw [if_neg (by simp [h])]

/-- On valid inputs the fft wrapper succeeds and preserves the buffer
lengths. -/
lemma fft_isOk (re im : List ℝ) (hlen : re.length = im.length)
    (hpow : ∃ m, re.length = 2 ^ m) :
    ∃ r i, fft re im = .ok (r, i) ∧ r.length = re.length ∧ i.length = re.length := by
  obtain ⟨m, hm⟩ := hpow
  rcases Nat.eq_zero_or_pos m with h0 | h1
  · subst h0
    refine ⟨re, im, ?_, rfl, hlen.symm⟩
    simp only [fft, hm]
    rw [if_neg (by omega), if_neg (by decide), if_pos (by norm_num)]
  · have := fft_eq_of_two_pow m re im hm (by omega) h1
    refine ⟨_, _, this, ?_, ?_⟩ <;> simp [hm]

/-- On valid inputs the ifft wrapper succeeds and preserves the buffer
lengths. -/
lemma ifft_isOk (re im : List ℝ) (hlen : re.length = im.length)
    (hpow : ∃ m, re.length = 2 ^ m) :
    ∃ r i, ifft re im = .ok (r, i) ∧ r.length = re.length ∧ i.length = re.length := by
  obtain ⟨r, i, hok, hr, hi⟩ := fft_isOk re (im.map fun x => -x) (by simp [hlen]) hpow
  refine ⟨r.map fun x => x * (1 / re.length), i.map fun x => -x * (1 / re.length), ?_, by simp [hr], by simp [hi]⟩
  rw [ifft, hok]

/-- convolve.ts `convolve(a, b)`: FFT-based linear convolution — zero-pad both
inputs to the next power of two ≥ len(a)+len(b)-1, transform, multiply
pointwise, inverse transform, truncate. -/
noncomputable def convolve (a b : List ℝ) : Except String (List ℝ) :=
  if a.length = 0 ∨ b.length = 0 then .ok []
  else
    let outLen := a.length + b.length - 1
    let N := nextPowerOfTwo outLen
    match realToComplex a (some N), realToComplex b (some N) with
    | .error e, _ => .error e
    | _, .error e => .error e
    | .ok (aRe, aIm), .ok (bRe, bIm) =>
      match fft aRe aIm, fft bRe bIm with
      | .error e, _ => .error e
      | _, .error e => .error e
      | .ok (aRe2, aIm2), .ok (bRe2, bIm2) =>
        let cRe := (List.range N).map fun i =>
          aRe2.getD i 0 * bRe2.getD i 0 - aIm2.getD i 0 * bIm2.getD i 0
        let cIm := (List.range N).map fun i =>
          aRe2.getD i 0 * bIm2.getD i 0 + aIm2.getD i 0 * bRe2.getD i 0
        match ifft cRe cIm with
        | .error e => .error e
        | .ok (cRe2, _) => .ok ((List.range outLen).map fun i => cRe2.getD i 0)

/-- Claim C8: convolve never throws and returns a buffer of length
len(a)+len(b)-1 for non-empty inputs, length 0 when either input is empty. -/
theorem convolve_length : ∀ a b : List ℝ, ∃ l, convolve a b = .ok l ∧
    l.length = if a.length = 0 ∨ b.length = 0 then 0 else a.length + b.length - 1 := by
  intro a b
  by_cases hemp : a.length = 0 ∨ b.length = 0
  · refine ⟨[], ?_, by rw [if_pos hemp]; rfl⟩
    rw [convolve, if_pos hemp]
  · rw [if_neg hemp]
    obtain ⟨k, hk⟩ := nextPowerOfTwo_pow (a.length + b.length - 1)
    have hpow : isPowerOfTwo (nextPowerOfTwo (a.length + b.length - 1)) = true := by
      rw [hk]
      exact isPowerOfTwo_two_pow k
    set N := nextPowerOfTwo (a.length + b.length - 1) with hN
    have hA := realToComplex_ok a N hpow
    have hB := realToComplex_ok b N hpow
    obtain ⟨ar, ai, hfA, hlA1, hlA2⟩ := fft_isOk
      ((List.range N).map (fun i => if i < min a.length N then a.getD i 0 else 0))
      (List.replicate N 0) (by simp) ⟨k, by simp [hk]⟩
    obtain ⟨br, bi, hfB, hlB1, hlB2⟩ := fft_isOk
      ((List.range N).map (fun i => if i < min b.length N then b.getD i 0 else 0))
      (List.replicate N 0) (by simp) ⟨k, by simp [hk]⟩
    obtain ⟨cr, ci, hfC, hlC1, hlC2⟩ := ifft_isOk
      ((List.range N).map fun i => ar.getD i 0 * br.getD i 0 - ai.getD i 0 * bi.getD i 0)
      ((List.range N).map fun i => ar.getD i 0 * bi.getD i 0 + ai.getD i 0 * br.getD i 0)
      (by simp) ⟨k, by simp [hk]⟩
    refine ⟨(List.range (a.length + b.length - 1)).map fun i => cr.getD i 0, ?_, by simp⟩
    rw [convolve, if_neg hemp]
    simp only [← hN, hA, hB, hfA, hfB, hfC]

/-! ## deconvolution.ts : impulse response extraction -/

/-- deconvolution.ts `ImpulseResponseResult`. -/
structure ImpulseResponseResult where
  ir : List ℝ
  peakIndex : ℕ
  rawPeak : ℝ

/-- The loop of deconvolution.ts `findPeakIndex`: track the largest absolute
value seen so far and its index (strict `>` comparison, so the first maximum
wins). -/
noncomputable def findPeakAux : List ℝ → ℕ → ℝ → ℕ → ℕ
  | [], _, _, idx => idx
  | v :: rest, i, maxAbs, idx =>
    if maxAbs < |v| then findPeakAux rest (i + 1) |v| i
    else findPeakAux rest (i + 1) maxAbs idx

/-- deconvolution.ts `findPeakIndex` (returns 0 for an empty buffer). -/
noncomputable def findPeakIndex (buffer : List ℝ) : ℕ := findPeakAux buffer 0 0 0

/-- Largest absolute value of a buffer, 0 if empty (statement-side notion used
to express the spec's `max(|ir|) == 1.0`). -/
noncomputable def maxAbs (l : List ℝ) : ℝ := l.foldl (fun acc v => max acc |v|) 0

/-- deconvolution.ts `extractImpulseResponse`: convolve with the inverse
filter, find the main peak, shift it to sample 0 (optionally capped), and
normalise to peak 1 unless the peak is 0.  An out-of-range read (empty
convolution output) is modelled as the value 0. -/
noncomputable def extractImpulseResponse (recording inverseFilter : List ℝ)
    (maxLengthSamples : Option ℕ) : Except String ImpulseResponseResult :=
  match convolve recording inverseFilter with
  | .error e => .error e
  | .ok raw =>
    let peakIndex := findPeakIndex raw
    let rawPeak := |raw.getD peakIndex 0|
    let afterPeak := raw.length - peakIndex
    let irLength := match maxLengthSamples with
      | some mls => min mls afterPeak
      | none => afterPeak
    let ir0 := (List.range irLength).map fun i => raw.getD (peakIndex + i) 0
    let ir := if 0 < rawPeak then ir0.map fun v => v * (1 / rawPeak) else ir0
    .ok ⟨ir, peakIndex, rawPeak⟩

lemma findPeakAux_cases : ∀ (l : List ℝ) (i : ℕ) (m : ℝ) (idx : ℕ),
    findPeakAux l i m idx = idx ∨ ∃ j, j < l.length ∧ findPeakAux l i m idx = i + j := by
  intro l
  induction l with
  | nil => intro i m idx; exact Or.inl rfl
  | cons v rest ih =>
    intro i m idx
    rw [findPeakAux]
    by_cases h : m < |v|
    · rw [if_pos h]
      rcases ih (i + 1) |v| i with h1 | ⟨j, hj, h2⟩
      · exact Or.inr ⟨0, by simp, by omega⟩
      · exact Or.inr ⟨j + 1, by simp; omega, by omega⟩
    · rw [if_neg h]
      rcases ih (i + 1) m idx with h1 | ⟨j, hj, h2⟩
      · exact Or.inl h1
      · exact Or.inr ⟨j + 1, by simp; omega, by omega⟩

lemma findPeakAux_max (F : List ℝ) : ∀ (l : List ℝ) (i : ℕ) (m : ℝ) (idx : ℕ),
    l = F.drop i → (m = 0 ∨ m = |F.getD idx 0|) →
    (∀ v ∈ l, |v| ≤ |F.getD (findPeakAux l i m idx) 0|) ∧
      m ≤ |F.getD (findPeakAux l i m idx) 0| := by
  intro l
  induction l with
  | nil =>
    intro i m idx _ hm
    rw [findPeakAux]
    refine ⟨by simp, ?_⟩
    rcases hm with hm | hm
    · rw [hm]; positivity
    · rw [hm]
  | cons v rest ih =>
    intro i m idx hl hm
    have hvF : F.getD i 0 = v := by
      have h1 : (F.drop i).head? = some v := by rw [← hl]; rfl
      rw [List.head?_drop] at h1
      rw [List.getD_eq_getElem?_getD, h1]
      rfl
    have hrest : rest = F.drop (i + 1) := by
      have : (F.drop i).tail = rest := by rw [← hl]; rfl
      rw [← this, List.tail_drop]
    rw [findPeakAux]
    by_cases h : m < |v|
    · rw [if_pos h]
      obtain ⟨hall, hmax⟩ := ih (i + 1) |v| i hrest (Or.inr (by rw [hvF]))
      refine ⟨?_, le_trans (le_of_lt h) hmax⟩
      intro u hu
      rcases List.mem_cons.mp hu with rfl | hu
      · exact hmax
      · exact hall u hu
    · rw [if_neg h]
      obtain ⟨hall, hmax⟩ := ih (i + 1) m idx hrest hm
      refine ⟨?_, hmax⟩
      intro u hu
      rcases List.mem_cons.mp hu with rfl | hu
      · exact le_trans (le_of_not_lt h) hmax
      · exact hall u hu

lemma findPeakIndex_lt (raw : List ℝ) (h : raw ≠ []) : findPeakIndex raw < raw.length := by
  rw [findPeakIndex]
  rcases findPeakAux_cases raw 0 0 0 with h1 | ⟨j, hj, h2⟩
  · rw [h1]
    exact List.length_pos.mpr h
  · rw [h2]
    omega

lemma findPeakIndex_max (raw : List ℝ) :
    ∀ v ∈ raw, |v| ≤ |raw.getD (findPeakIndex raw) 0| := by
  rw [findPeakIndex]
  exact (findPeakAux_max raw raw 0 0 0 (by rw [List.drop_zero]) (Or.inl rfl)).1

lemma foldl_max_ge_init : ∀ (l : List ℝ) (acc : ℝ),
    acc ≤ l.foldl (fun a v => max a |v|) acc := by
  intro l
  induction l with
  | nil => intro acc; exact le_refl _
  | cons v rest ih =>
    intro acc
    rw [List.foldl_cons]
    exact le_trans (le_max_left acc |v|) (ih _)

lemma foldl_max_ge_mem : ∀ (l : List ℝ) (acc v : ℝ), v ∈ l →
    |v| ≤ l.foldl (fun a u => max a |u|) acc := by
  intro l
  induction l with
  | nil => intro acc v hv; exact absurd hv (List.not_mem_nil v)
  | cons w rest ih =>
    intro acc v hv
    rw [List.foldl_cons]
    rcases List.mem_cons.mp hv with rfl | hv
    · exact le_trans (le_max_right acc |v|) (foldl_max_ge_init _ _)
    · exact ih _ v hv

lemma foldl_max_le : ∀ (l : List ℝ) (acc c : ℝ), acc ≤ c → (∀ v ∈ l, |v| ≤ c) →
    l.foldl (fun a u => max a |u|) acc ≤ c := by
  intro l
  induction l with
  | nil => intro acc c h _; exact h
  | cons w rest ih =>
    intro acc c h hall
    rw [List.foldl_cons]
    exact ih _ c (max_le h (hall w (List.mem_cons_self _ _))) fun v hv =>
      hall v (List.mem_cons_of_mem _ hv)

lemma maxAbs_eq_one (l : List ℝ) (hub : ∀ v ∈ l, |v| ≤ 1)
    (hhit : ∃ v ∈ l, |v| = 1) : maxAbs l = 1 := by

  obtain ⟨v, hv, hv1⟩ := hhit
  refine le_antisymm (foldl_max_le l 0 1 (by norm_num) hub) ?_
  rw [← hv1]
  exact foldl_max_ge_mem l 0 v hv

/-- Claim C2 (amended): for every recording/inverse-filter pair with non-empty
convolution output `raw`, extractImpulseResponse succeeds; the peak index is
in range, `rawPeak = |raw[peakIndex]|`, the ir is the peak-normalised tail of
`raw` starting at the peak (truncated by the cap when given), its peak equals
1 once `rawPeak > 0` **and the extracted ir is non-empty** (a cap of 0 yields
an empty ir with no sample at 1), and the ir is all-zero when `rawPeak = 0`. -/
theorem extractImpulseResponse_spec :
    ∀ (recording inverseFilter : List ℝ) (cap : Option ℕ) (raw : List ℝ),
    convolve recording inverseFilter = .ok raw → raw ≠ [] →
    ∃ res, extractImpulseResponse recording inverseFilter cap = .ok res ∧
      res.peakIndex < raw.length ∧
      res.rawPeak = |raw.getD res.peakIndex 0| ∧
      res.ir.length = (match cap with
        | some mls => min mls (raw.length - res.peakIndex)
        | none => raw.length - res.peakIndex) ∧
      (∀ i, i < res.ir.length →
        res.ir.getD i 0 = raw.getD (res.peakIndex + i) 0 *
          (if 0 < res.rawPeak then 1 / res.rawPeak else 1)) ∧
      (0 < res.rawPeak → res.ir ≠ [] → maxAbs res.ir = 1) ∧
      (res.rawPeak = 0 → ∀ v ∈ res.ir, v = 0) := by
  intro recording inverseFilter cap raw hconv hne
  simp only [extractImpulseResponse, hconv]
  set peak := findPeakIndex raw with hpeak
  set rawPeak := |raw.getD peak 0| with hraw
  set irLength := (match cap with
    | some mls => min mls (raw.length - peak)
    | none => raw.length - peak) with hirln
  set ir0 : List ℝ := (List.range irLength).map fun i => raw.getD (peak + i) 0 with hir0
  have hlen0 : ir0.length = irLength := by simp [hir0]
  have hirlen_le : irLength ≤ raw.length - peak := by
    rw [hirln]
    cases cap with
    | none => exact le_refl _
    | some mls => exact min_le_right _ _
  have hpklt := findPeakIndex_lt raw hne
  have hbound : ∀ i, i < irLength → |raw.getD (peak + i) 0| ≤ rawPeak := by
    intro i hi
    rw [hraw]
    refine findPeakIndex_max raw _ ?_
    rw [List.getD_eq_getElem raw 0 (show peak + i < raw.length by omega)]
    exact List.getElem_mem _
  refine ⟨⟨if 0 < rawPeak then ir0.map (fun v => v * (1 / rawPeak)) else ir0, peak, rawPeak⟩,
    rfl, hpklt, rfl, ?_, ?_, ?_, ?_⟩
  · dsimp only
    by_cases hpos : 0 < rawPeak
    · rw [if_pos hpos]
      simp [hir0, hirln]
    · rw [if_neg hpos]
      simp [hir0, hirln]
  · dsimp only
    intro i hi
    by_cases hpos : 0 < rawPeak
    · rw [if_pos hpos] at hi ⊢
      simp only [List.length_map, hlen0] at hi
      rw [hir0, List.map_map, getD_range_map _ _ _ hi, if_pos hpos]
      rfl
    · rw [if_neg hpos] at hi ⊢
      simp only [hlen0] at hi
      rw [hir0, getD_range_map _ _ _ hi, if_neg hpos, mul_one]
  · dsimp only
    intro hpos hirne
    rw [if_pos hpos] at hirne ⊢
    have hlpos : 0 < irLength := by
      by_contra h0
      apply hirne
      have hz : irLength = 0 := by omega
      simp [hir0, hz]
    refine maxAbs_eq_one _ ?_ ?_
    · intro v hv
      obtain ⟨u, hu, rfl⟩ := List.mem_map.mp hv
      obtain ⟨i, hi, rfl⟩ := List.mem_map.mp (by rw [hir0] at hu; exact hu)
      have hiL : i < irLength := List.mem_range.mp hi
      rw [abs_mul, abs_of_pos (by positivity : (0:ℝ) < 1 / rawPeak)]
      calc |raw.getD (peak + i) 0| * (1 / rawPeak)
          ≤ rawPeak * (1 / rawPeak) := by
            have := hbound i hiL
            have h1 : 0 < 1 / rawPeak := by positivity
            nlinarith
        _ = 1 := by field_simp
    · refine ⟨raw.getD (peak + 0) 0 * (1 / rawPeak), ?_, ?_⟩
      · refine List.mem_map.mpr ⟨raw.getD (peak + 0) 0, ?_, rfl⟩
        rw [hir0]
        exact List.mem_map.mpr ⟨0, List.mem_range.mpr hlpos, rfl⟩
      · rw [abs_mul, abs_of_pos (by positivity : (0:ℝ) < 1 / rawPeak), Nat.add_zero, ← hraw]
        field_simp
  · dsimp only
    intro h0
    rw [if_neg (by rw [h0]; exact lt_irrefl 0)]
    intro v hv
    obtain ⟨i, hi, rfl⟩ := List.mem_map.mp (by rw [hir0] at hv; exact hv)
    have hiL : i < irLength := List.mem_range.mp hi
    have hb := hbound i hiL
    rw [h0] at hb
    have habs := abs_nonneg (raw.getD (peak + i) 0)
    have hz : |raw.getD (peak + i) 0| = 0 := le_antisymm hb habs
    exact abs_eq_zero.mp hz

/-- Concrete evaluation of the length-1 convolution: a delta times a delta. -/
lemma convolve_one_one : convolve [(1:ℝ)] [(1:ℝ)] = .ok [(1:ℝ)] := by
  have hN : nextPowerOfTwo 1 = 1 := by rw [nextPowerOfTwo, if_pos (by norm_num)]
  have hA : realToComplex [(1:ℝ)] (some 1) = .ok ([(1:ℝ)], [(0:ℝ)]) := by
    rw [realToComplex_ok _ 1 (by decide)]
    norm_num [List.range_succ, List.range_zero]
  have hF : fft [(1:ℝ)] [(0:ℝ)] = .ok ([(1:ℝ)], [(0:ℝ)]) :=
    fft_one _ _ (by norm_num) (by norm_num)
  have hcRe : (List.range 1).map (fun i =>
      ([(1:ℝ)].getD i 0) * ([(1:ℝ)].getD i 0) - ([(0:ℝ)].getD i 0) * ([(0:ℝ)].getD i 0)) =
      [(1:ℝ)] := by
    norm_num [List.range_succ, List.range_zero]
  have hcIm : (List.range 1).map (fun i =>
      ([(1:ℝ)].getD i 0) * ([(0:ℝ)].getD i 0) + ([(0:ℝ)].getD i 0) * ([(1:ℝ)].getD i 0)) =
      [(0:ℝ)] := by
    norm_num [List.range_succ, List.range_zero]
  have hI : ifft [(1:ℝ)] [(0:ℝ)] = .ok ([(1:ℝ)], [(0:ℝ)]) := by
    have hneg : ([(0:ℝ)]).map (fun x => -x) = [(0:ℝ)] := by norm_num
    simp only [ifft, hneg, hF]
    norm_num
  rw [convolve, if_neg (by norm_num)]
  simp only [List.length_singleton, hN, hA]
  rw [hF]
  simp only [hcRe, hcIm, hI]
  norm_num [List.range_succ, List.range_zero]

/-- Counterexample to claim C2 as stated: with a cap of 0 samples the
extracted ir is empty, so `rawPeak > 0` does not imply `max|ir| = 1`. -/
theorem extractImpulseResponse_cap_zero :
    extractImpulseResponse [(1:ℝ)] [(1:ℝ)] (some 0) =
        .ok ⟨[], 0, 1⟩ ∧
      (0:ℝ) < 1 ∧ maxAbs ([] : List ℝ) ≠ 1 := by
  refine ⟨?_, by norm_num, by norm_num [maxAbs]⟩
  simp only [extractImpulseResponse, convolve_one_one]
  have hpk : findPeakIndex [(1:ℝ)] = 0 := by
    rw [findPeakIndex, findPeakAux, if_pos (by norm_num), findPeakAux]
  simp only [hpk]
  norm_num

/-- Witness for the amended C2 at a concrete input. -/
theorem extractImpulseResponse_spec_witness :
    ∃ res, extractImpulseResponse [(1:ℝ)] [(1:ℝ)] none = .ok res ∧
      res.peakIndex < ([(1:ℝ)]).length ∧
      res.rawPeak = |([(1:ℝ)]).getD res.peakIndex 0| ∧
      res.ir.length = ([(1:ℝ)]).length - res.peakIndex ∧
      (∀ i, i < res.ir.length →
        res.ir.getD i 0 = ([(1:ℝ)]).getD (res.peakIndex + i) 0 *
          (if 0 < res.rawPeak then 1 / res.rawPeak else 1)) ∧
      (0 < res.rawPeak → res.ir ≠ [] → maxAbs res.ir = 1) ∧
      (res.rawPeak = 0 → ∀ v ∈ res.ir, v = 0) := by
  obtain ⟨res, h1, h2, h3, h4, h5, h6, h7⟩ :=
    extractImpulseResponse_spec [(1:ℝ)] [(1:ℝ)] none [(1:ℝ)] convolve_one_one (by norm_num)
  exact ⟨res, h1, h2, h3, h4, h5, h6, h7⟩

/-! ## rt60.ts : Schroeder backward integration -/

/-- rt60.ts `RT60Result`. -/
structure RT60Result where
  rt60 : ℝ
  t20 : ℝ
  t30 : Option ℝ
  edcDb : List ℝ
  noiseFloorDb : ℝ

/-- The per-sample dB conversion shared by rt60.ts: `ratio > 0 ?
10*log10(ratio) : -120`. -/
noncomputable def dbOfRatio (ratio : ℝ) : ℝ :=
  if 0 < ratio then 10 * Real.logb 10 ratio else -120

/-- The Schroeder backward cumulative sum of rt60.ts:
`edc[i] = edc[i+1] + energy[i]`, `edc[last] = energy[last]`. -/
noncomputable def schroederEDC : List ℝ → List ℝ
  | [] => []
  | a :: rest =>
    let r := schroederEDC rest
    (a + r.headD 0) :: r

/-- First index whose value is ≤ the threshold (the crossing searches of
rt60.ts `fitDecayRange`). -/
noncomputable def findCrossing : List ℝ → ℝ → Option ℕ
  | [], _ => none
  | v :: rest, th => if v ≤ th then some 0 else (findCrossing rest th).map (· + 1)

/-- rt60.ts `fitDecayRange`.  The source finds both crossings in one loop:
`startIdx` is the first sample ≤ startDb and `endIdx` the first sample at or
after `startIdx` that is ≤ endDb (the same iteration may set both); the
`endIdx <= startIdx` case is then rejected.  The regression follows the
source's running sums; `1e-12` is the source's denominator guard. -/
noncomputable def fitDecayRange (edcDb : List ℝ) (sampleRate startDb endDb : ℝ) :
    Option ℝ :=
  match findCrossing edcDb startDb with
  | none => none
  | some startIdx =>
    match (findCrossing (edcDb.drop startIdx) endDb).map (· + startIdx) with
    | none => none
    | some endIdx =>
      if endIdx ≤ startIdx then none
      else
        let n := endIdx - startIdx + 1
        if n < 3 then none
        else
          let idxs := (List.range n).map (· + startIdx)
          let sumX := (idxs.map fun (i : ℕ) => (i : ℝ) / sampleRate).sum
          let sumY := (idxs.map fun (i : ℕ) => edcDb.getD i 0).sum
          let sumXY := (idxs.map fun (i : ℕ) => (i : ℝ) / sampleRate * edcDb.getD i 0).sum
          let sumX2 := (idxs.map fun (i : ℕ) => (i : ℝ) / sampleRate * ((i : ℝ) / sampleRate)).sum
          let denom := (n : ℝ) * sumX2 - sumX * sumX
          if |denom| < 1 / 10 ^ 12 then none
          else
            let slope := ((n : ℝ) * sumXY - sumX * sumY) / denom
            let decayRateDbPerSec := -slope
            if decayRateDbPerSec ≤ 0 then none else some decayRateDbPerSec

/-- rt60.ts `estimateRT60`.  `Math.floor(ir.length * 0.9)` is the exact
integer `9 * len / 10`. -/
noncomputable def estimateRT60 (ir : List ℝ) (sampleRate : ℝ) : Option RT60Result :=
  if ir.length < 2 then none
  else
    let energy := ir.map fun v => v * v
    let edc := schroederEDC energy
    let maxEnergy := edc.getD 0 0
    if maxEnergy ≤ 0 then none
    else
      let edcDb := edc.map fun v => dbOfRatio (v / maxEnergy)
      let tailStart := 9 * ir.length / 10
      let tail := edcDb.drop tailStart
      let noiseFloorDb := if 0 < tail.length then tail.sum / (tail.length : ℝ) else -60
      match fitDecayRange edcDb sampleRate (-5) (-25) with
      | none => none
      | some rate20 =>
        let t20 := 60 / rate20
        let rt60 := t20
        let t30 := (fitDecayRange edcDb sampleRate (-5) (-35)).map fun r => 60 / r
        if rt60 ≤ 0 ∨ 30 < rt60 then none
        else some ⟨rt60, t20, t30, edcDb, noiseFloorDb⟩

/-- rt60.ts `computeEDC` (standalone EDC-in-dB; guards a zero total energy by
sending the ratio to 0, hence the dB value to the -120 floor). -/
noncomputable def computeEDC (ir : List ℝ) : List ℝ :=
  let energy := ir.map fun v => v * v
  let edc := schroederEDC energy
  let maxEnergy := edc.getD 0 0
  edc.map fun v => dbOfRatio (if 0 < maxEnergy then v / maxEnergy else 0)

lemma schroederEDC_length (l : List ℝ) : (schroederEDC l).length = l.length := by
  induction l with
  | nil => rfl
  | cons a rest ih => simp [schroederEDC, ih]

lemma schroederEDC_getD (l : List ℝ) : ∀ i, (schroederEDC l).getD i 0 = (l.drop i).sum := by
  induction l with
  | nil => intro i; simp [schroederEDC]
  | cons a rest ih =>
    intro i
    cases i with
    | zero =>
      have hhead : (schroederEDC rest).headD 0 = (schroederEDC rest).getD 0 0 := by
        cases schroederEDC rest <;> rfl
      have hun : schroederEDC (a :: rest) = (a + (schroederEDC rest).headD 0) :: schroederEDC rest := rfl
      rw [hun, List.getD_cons_zero, hhead, ih 0, List.drop_zero, List.drop_zero, List.sum_cons]
    | succ i =>
      simpa [schroederEDC] using ih i

lemma sum_drop_mono (l : List ℝ) :
    (∀ v ∈ l, 0 ≤ v) → ∀ i, (l.drop (i + 1)).sum ≤ (l.drop i).sum := by
  induction l with
  | nil => intro _ i; simp
  | cons a rest ih =>
    intro h i
    cases i with
    | zero =>
      simp only [List.drop_succ_cons, List.drop_zero, List.sum_cons]
      have ha : 0 ≤ a := h a (List.mem_cons_self _ _)
      linarith
    | succ i =>
      simpa [List.drop_succ_cons] using ih (fun v hv => h v (List.mem_cons_of_mem _ hv)) i

lemma sum_drop_le_sum (l : List ℝ) (h : ∀ v ∈ l, 0 ≤ v) :
    ∀ i, (l.drop i).sum ≤ l.sum := by
  intro i
  induction i with
  | zero => simp
  | succ i ih => exact le_trans (sum_drop_mono l h i) ih

lemma energy_nonneg (ir : List ℝ) : ∀ v ∈ ir.map (fun v => v * v), 0 ≤ v := by
  intro v hv
  obtain ⟨w, _, rfl⟩ := List.mem_map.mp hv
  exact mul_self_nonneg w

lemma edc_head_pos_of_pos (energy : List ℝ) (hE : ∀ v ∈ energy, 0 ≤ v) (i : ℕ)
    (h : 0 < (schroederEDC energy).getD i 0) :
    0 < (schroederEDC energy).getD 0 0 := by
  rw [schroederEDC_getD] at h ⊢
  rw [List.drop_zero]
  exact lt_of_lt_of_le h (sum_drop_le_sum energy hE i)

lemma getD_map_zero (f : ℝ → ℝ) (l : List ℝ) (j : ℕ) (hj : j < l.length) :
    (l.map f).getD j 0 = f (l.getD j 0) := by
  rw [List.getD_eq_getElem (l.map f) 0 (by simpa using hj), List.getD_eq_getElem l 0 hj,
    List.getElem_map]

lemma dbOfRatio_mono {x y : ℝ} (hx : 0 < x) (hxy : x ≤ y) : dbOfRatio x ≤ dbOfRatio y := by
  rw [dbOfRatio, dbOfRatio, if_pos hx, if_pos (lt_of_lt_of_le hx hxy)]
  have hlog : Real.logb 10 x ≤ Real.logb 10 y :=
    Real.logb_le_logb_of_le (by norm_num) hx hxy
  linarith

lemma edcDb_head_eq_zero (energy : List ℝ)
    (hpos : 0 < (schroederEDC energy).getD 0 0) :
    ((schroederEDC energy).map fun v =>
      dbOfRatio (v / (schroederEDC energy).getD 0 0)).getD 0 0 = 0 := by
  cases h : schroederEDC energy with
  | nil => rw [h] at hpos; simp at hpos
  | cons a rest =>
    rw [h] at hpos
    rw [List.getD_cons_zero] at hpos
    rw [List.map_cons, List.getD_cons_zero, List.getD_cons_zero,
      div_self (ne_of_gt hpos), dbOfRatio, if_pos one_pos, Real.logb_one, mul_zero]

lemma edcDb_getD_le (energy : List ℝ) (hE : ∀ v ∈ energy, 0 ≤ v) (i : ℕ)
    (hpos : 0 < (schroederEDC energy).getD (i + 1) 0) :
    ((schroederEDC energy).map fun v =>
      dbOfRatio (v / (schroederEDC energy).getD 0 0)).getD (i + 1) 0 ≤
    ((schroederEDC energy).map fun v =>
      dbOfRatio (v / (schroederEDC energy).getD 0 0)).getD i 0 := by
  have hMpos : 0 < (schroederEDC energy).getD 0 0 :=
    edc_head_pos_of_pos energy hE (i + 1) hpos
  have hlen : i + 1 < (schroederEDC energy).length := by
    by_contra hc
    push_neg at hc
    rw [List.getD_eq_default _ _ hc] at hpos
    exact lt_irrefl 0 hpos
  have hmono : (schroederEDC energy).getD (i + 1) 0 ≤ (schroederEDC energy).getD i 0 := by
    rw [schroederEDC_getD, schroederEDC_getD]
    exact sum_drop_mono energy hE i
  rw [getD_map_zero _ _ _ hlen, getD_map_zero _ _ _ (lt_of_le_of_lt (Nat.le_succ i) hlen)]
  exact dbOfRatio_mono (div_pos hpos hMpos) (div_le_div_of_nonneg_right hmono hMpos.le)

/-- C3: `estimateRT60` is total (modelled as an `Option`-valued function: no
code path throws): it returns `none` when the IR has fewer than 2 samples,
when the total energy `edc[0]` is non-positive, or when no T20 decay-fit
window exists; and every `some` result satisfies `0 < rt60 ≤ 30`. -/
theorem estimateRT60_spec : ∀ (ir : List ℝ) (sampleRate : ℝ),
    (ir.length < 2 → estimateRT60 ir sampleRate = none) ∧
    ((schroederEDC (ir.map fun v => v * v)).getD 0 0 ≤ 0 →
      estimateRT60 ir sampleRate = none) ∧
    (fitDecayRange ((schroederEDC (ir.map fun v => v * v)).map fun v =>
        dbOfRatio (v / (schroederEDC (ir.map fun v => v * v)).getD 0 0))
        sampleRate (-5) (-25) = none →
      estimateRT60 ir sampleRate = none) ∧
    (∀ r, estimateRT60 ir sampleRate = some r → 0 < r.rt60 ∧ r.rt60 ≤ 30) := by
  intro ir sampleRate
  refine ⟨?_, ?_, ?_, ?_⟩
  · intro h
    simp only [estimateRT60, if_pos h]
  · intro h
    by_cases h1 : ir.length < 2
    · simp only [estimateRT60, if_pos h1]
    · simp only [estimateRT60, if_neg h1, if_pos h]
  · intro h
    by_cases h1 : ir.length < 2
    · simp only [estimateRT60, if_pos h1]
    · by_cases h2 : (schroederEDC (ir.map fun v => v * v)).getD 0 0 ≤ 0
      · simp only [estimateRT60, if_neg h1, if_pos h2]
      · simp only [estimateRT60, if_neg h1, if_neg h2, h]
  · intro r hr
    simp only [estimateRT60] at hr
    split at hr
    · exact absurd hr (by simp)
    · split at hr
      · exact absurd hr (by simp)
      · split at hr
        · exact absurd hr (by simp)
        · split at hr
          · exact absurd hr (by simp)
          · rename_i rate20 heq hguard
            rw [not_or] at hguard
            obtain ⟨hg1, hg2⟩ := hguard
            push_neg at hg1 hg2
            injection hr with hr
            rw [← hr]
            exact ⟨hg1, le_of_not_lt (by intro hc; exact absurd hc (by simpa using hg2))⟩

/-- C4 (amended): when the total energy `edc[0]` is positive, `computeEDC`
starts at exactly 0 dB, is non-increasing at every step whose remaining
energy `edc[i+1]` is still positive, and equals the -120 dB clamp wherever
the remaining energy is non-positive; the `edcDb` buffer of every non-null
`estimateRT60` result starts at 0 dB and is non-increasing on the same
steps. -/
theorem edcDb_shape_spec : ∀ (ir : List ℝ) (sampleRate : ℝ),
    (0 < (schroederEDC (ir.map fun v => v * v)).getD 0 0 →
      (computeEDC ir).getD 0 0 = 0 ∧
      (∀ i, 0 < (schroederEDC (ir.map fun v => v * v)).getD (i + 1) 0 →
        (computeEDC ir).getD (i + 1) 0 ≤ (computeEDC ir).getD i 0) ∧
      (∀ i, i < ir.length → (schroederEDC (ir.map fun v => v * v)).getD i 0 ≤ 0 →
        (computeEDC ir).getD i 0 = -120)) ∧
    (∀ r, estimateRT60 ir sampleRate = some r →
      r.edcDb.getD 0 0 = 0 ∧
      ∀ i, 0 < (schroederEDC (ir.map fun v => v * v)).getD (i + 1) 0 →
        r.edcDb.getD (i + 1) 0 ≤ r.edcDb.getD i 0) := by
  intro ir sampleRate
  constructor
  · intro hM
    have hCE : computeEDC ir = (schroederEDC (ir.map fun v => v * v)).map
        (fun v => dbOfRatio (v / (schroederEDC (ir.map fun v => v * v)).getD 0 0)) := by
      simp only [computeEDC]
      refine List.map_congr_left fun v hv => ?_
      rw [if_pos hM]
    refine ⟨?_, ?_, ?_⟩
    · rw [hCE]
      exact edcDb_head_eq_zero _ hM
    · intro i hpos
      rw [hCE]
      exact edcDb_getD_le _ (energy_nonneg ir) i hpos
    · intro i hi hle
      have hlen : i < (schroederEDC (ir.map fun v => v * v)).length := by
        rw [schroederEDC_length, List.length_map]
        exact hi
      rw [hCE, getD_map_zero _ _ _ hlen]
      have hratio : (schroederEDC (ir.map fun v => v * v)).getD i 0 /
          (schroederEDC (ir.map fun v => v * v)).getD 0 0 ≤ 0 :=
        div_nonpos_iff.mpr (Or.inr ⟨hle, hM.le⟩)
      rw [dbOfRatio, if_neg (not_lt.mpr hratio)]
  · intro r hr
    by_cases h1 : ir.length < 2
    · simp only [estimateRT60, if_pos h1] at hr
      exact absurd hr (by simp)
    · by_cases h2 : (schroederEDC (ir.map fun v => v * v)).getD 0 0 ≤ 0
      · simp only [estimateRT60, if_neg h1, if_pos h2] at hr
        exact absurd hr (by simp)
      · simp only [estimateRT60, if_neg h1, if_neg h2] at hr
        split at hr
        · exact absurd hr (by simp)
        · split at hr
          · exact absurd hr (by simp)
          · injection hr with hr
            rw [← hr]
            have hM : 0 < (schroederEDC (ir.map fun v => v * v)).getD 0 0 := not_le.mp h2
            constructor
            · exact edcDb_head_eq_zero _ hM
            · intro i hpos
              exact edcDb_getD_le _ (energy_nonneg ir) i hpos

/-- C4 counterexample: for the IR `[1, 1e-10, 0]` (positive total energy) the
EDC in dB rises by more than 60 dB from index 1 to index 2: the last sample
has zero remaining energy and is clamped to -120 dB, which is far above the
roughly -200 dB value at index 1, so `computeEDC` output is not monotonically
non-increasing within any small tolerance. -/
theorem computeEDC_not_monotone :
    0 < (schroederEDC (([1, 1 / 10 ^ 10, 0] : List ℝ).map fun v => v * v)).getD 0 0 ∧
    (computeEDC [1, 1 / 10 ^ 10, 0]).getD 1 0 + 60 < (computeEDC [1, 1 / 10 ^ 10, 0]).getD 2 0 := by
  have hmap : (([1, 1 / 10 ^ 10, 0] : List ℝ).map fun v => v * v) = [1, 1 / 10 ^ 20, 0] := by
    norm_num
  have hedc : schroederEDC [1, 1 / 10 ^ 20, 0] = [1 + 1 / 10 ^ 20, 1 / 10 ^ 20, 0] := by
    norm_num [schroederEDC]
  have hM : (0:ℝ) < 1 + 1 / 10 ^ 20 := by norm_num
  have hratio_pos : (0:ℝ) < (1 / 10 ^ 20) / (1 + 1 / 10 ^ 20) := by positivity
  have hCE : computeEDC [1, 1 / 10 ^ 10, 0] =
      [dbOfRatio ((1 + 1 / 10 ^ 20) / (1 + 1 / 10 ^ 20)),
       dbOfRatio ((1 / 10 ^ 20) / (1 + 1 / 10 ^ 20)),
       dbOfRatio (0 / (1 + 1 / 10 ^ 20))] := by
    simp only [computeEDC, hmap, hedc, List.getD_cons_zero, List.map_cons, List.map_nil]
    rw [if_pos hM, if_pos hM, if_pos hM]
  constructor
  · rw [hmap, hedc]
    simpa using hM
  · have hg2 : (computeEDC [1, 1 / 10 ^ 10, 0]).getD 2 0 = -120 := by
      rw [hCE]
      simp only [List.getD_cons_succ, List.getD_cons_zero]
      rw [dbOfRatio, if_neg (by norm_num)]
    have hg1 : (computeEDC [1, 1 / 10 ^ 10, 0]).getD 1 0 =
        10 * Real.logb 10 ((1 / 10 ^ 20) / (1 + 1 / 10 ^ 20)) := by
      rw [hCE]
      simp only [List.getD_cons_succ, List.getD_cons_zero]
      rw [dbOfRatio, if_pos hratio_pos]
    have hlt : Real.logb 10 ((1 / 10 ^ 20) / (1 + 1 / 10 ^ 20)) < -18 := by
      rw [Real.logb_lt_iff_lt_rpow (by norm_num) hratio_pos]
      have h10 : (10:ℝ) ^ (-18 : ℝ) = ((10:ℝ) ^ (18:ℕ))⁻¹ := by
        rw [show (-18 : ℝ) = -((18:ℕ):ℝ) by norm_num,
          Real.rpow_neg (by norm_num), Real.rpow_natCast]
      rw [h10, div_lt_iff₀ (by norm_num : (0:ℝ) < 1 + 1 / 10 ^ 20)]
      norm_num
    rw [hg1, hg2]
    linarith

/-! ## waterfall.ts : cumulative spectral decay -/

/-- JS `Math.round` on exact rationals: round half toward +∞. -/
def jround (q : ℚ) : ℤ := ⌊q + 1 / 2⌋

/-- waterfall.ts `WaterfallSlice`. -/
structure WaterfallSlice where
  timeSec : ℚ
  magnitudeDb : List ℝ

/-- waterfall.ts `WaterfallData`; `maxDb` starts at `-Infinity`, modelled as
`⊥ : WithBot ℝ`. -/
structure WaterfallData where
  slices : List WaterfallSlice
  frequencies : List ℝ
  maxDb : WithBot ℝ

/-- waterfall.ts `WaterfallOptions` with its declared defaults. -/
structure WaterfallOptions where
  numSlices : ℕ := 30
  windowSec : ℚ := 3 / 10
  numFreqPoints : ℕ := 200
  fMin : ℝ := 20
  fMax : ℝ := 15000

/-- The per-sample window factor of waterfall.ts: the first half of the
segment is untouched, the second half gets a half-Hann fade whose last
sample is 0. -/
noncomputable def halfHannFactor (segLen i : ℕ) : ℝ :=
  let w := if i + 1 < segLen
    then 1 / 2 * (1 - Real.cos (Real.pi * ((segLen : ℝ) - 1 - i) / ((segLen : ℝ) - 1)))
    else 0
  if (i : ℝ) < (segLen : ℝ) / 2 then 1 else w

/-- The log-axis magnitude resampling of waterfall.ts: linear interpolation
between FFT bins `⌊bin⌋` and `min (⌊bin⌋+1) (fftSize/2 - 1)`, in dB with a
-120 dB floor.  `fftSize/2 - 1` is computed over ℤ, which agrees with the
source's float arithmetic for every power-of-two `fftSize ≥ 2`; `Int.toNat`
clamps the (never-reached-in-source for the bins computeWaterfall produces)
negative indices. -/
noncomputable def magnitudeDbAt (re im : List ℝ) (fftSize : ℕ) (bin : ℝ) : ℝ :=
  let binLow := ⌊bin⌋
  let binHigh := min (binLow + 1) ((fftSize : ℤ) / 2 - 1)
  let frac := bin - (binLow : ℝ)
  let magLow := Real.sqrt (re.getD binLow.toNat 0 * re.getD binLow.toNat 0 +
    im.getD binLow.toNat 0 * im.getD binLow.toNat 0)
  let magHigh := Real.sqrt (re.getD binHigh.toNat 0 * re.getD binHigh.toNat 0 +
    im.getD binHigh.toNat 0 * im.getD binHigh.toNat 0)
  let mag := magLow + frac * (magHigh - magLow)
  if 0 < mag then 20 * Real.logb 10 (mag / (fftSize : ℝ)) else -120

/-- One iteration of the slice loop of waterfall.ts `computeWaterfall`;
`none` models the `break` taken when no samples remain at the slice's start
offset.  `fft` always succeeds here (its buffers have the power-of-two
length `fftSize`), so the `.toOption.getD` fallback is dead code. -/
noncomputable def wfStep (ir : List ℝ) (sampleRate : ℚ) (numSlices : ℕ)
    (totalSamples : ℤ) (fftSize : ℕ) (freqBins : List ℝ) (s : ℕ) :
    Option WaterfallSlice :=
  let startSample := jround ((s : ℚ) / (numSlices : ℚ) * (totalSamples : ℚ))
  let timeSec := (startSample : ℚ) / sampleRate
  let remaining := (ir.length : ℤ) - startSample
  if remaining ≤ 0 then none
  else
    let segLen := (min (totalSamples - startSample) remaining).toNat
    let segment := (List.range segLen).map fun i =>
      ir.getD (startSample.toNat + i) 0 * halfHannFactor segLen i
    let p := (realToComplex segment (some fftSize)).toOption.getD ([], [])
    let q := (fft p.1 p.2).toOption.getD ([], [])
    some ⟨timeSec, freqBins.map fun bin => magnitudeDbAt q.1 q.2 fftSize bin⟩

/-- The slice loop of waterfall.ts: run `step` on slice indices `s, s+1, ...`
for at most `k` more iterations, stopping at the first `none` (the `break`). -/
noncomputable def wfLoop (step : ℕ → Option WaterfallSlice) : ℕ → ℕ → List WaterfallSlice
  | _, 0 => []
  | s, k + 1 =>
    match step s with
    | none => []
    | some sl => sl :: wfLoop step (s + 1) k

/-- The running `if (db > maxDb) maxDb = db` update of waterfall.ts, folded
over every dB value of every slice in iteration order. -/
noncomputable def wfMaxDb (slices : List WaterfallSlice) : WithBot ℝ :=
  slices.foldl (fun m sl => sl.magnitudeDb.foldl (fun m v => max m (v : WithBot ℝ)) m) ⊥

/-- waterfall.ts `computeWaterfall`.  `Math.pow(10, x)` is real
exponentiation and `Math.log10` is `Real.logb 10`. -/
noncomputable def computeWaterfall (ir : List ℝ) (sampleRate : ℚ)
    (options : WaterfallOptions) : WaterfallData :=
  let totalSamples := min (jround (options.windowSec * sampleRate)) (ir.length : ℤ)
  let fftSize := nextPowerOfTwo totalSamples.toNat
  let logFMin := Real.logb 10 options.fMin
  let logFMax := Real.logb 10 options.fMax
  let frequencies := (List.range options.numFreqPoints).map fun i =>
    (10 : ℝ) ^ (logFMin + (i : ℝ) / ((options.numFreqPoints : ℝ) - 1) * (logFMax - logFMin))
  let freqBins := frequencies.map fun freq => freq / (sampleRate : ℝ) * (fftSize : ℝ)
  let slices := wfLoop
    (wfStep ir sampleRate options.numSlices totalSamples fftSize freqBins) 0 options.numSlices
  ⟨slices, frequencies, wfMaxDb slices⟩

lemma wfLoop_length_le (step : ℕ → Option WaterfallSlice) :
    ∀ k s, (wfLoop step s k).length ≤ k := by
  intro k
  induction k with
  | zero => intro s; simp [wfLoop]
  | succ k ih =>
    intro s
    cases h : step s with
    | none => simp [wfLoop, h]
    | some sl =>
      simp only [wfLoop, h, List.length_cons]
      exact Nat.succ_le_succ (ih (s + 1))

lemma wfLoop_length_eq (step : ℕ → Option WaterfallSlice) :
    ∀ k s, (∀ j, j < k → step (s + j) ≠ none) → (wfLoop step s k).length = k := by
  intro k
  induction k with
  | zero => intro s _; simp [wfLoop]
  | succ k ih =>
    intro s hall
    cases h : step s with
    | none => exact absurd h (by simpa using hall 0 (by omega))
    | some sl =>
      simp only [wfLoop, h, List.length_cons]
      rw [ih (s + 1) ?_]
      intro j hj
      have h2 := hall (j + 1) (by omega)
      rw [show s + (j + 1) = s + 1 + j by omega] at h2
      exact h2

lemma wfLoop_timeSec_eq (step : ℕ → Option WaterfallSlice) (f : ℕ → ℚ)
    (hf : ∀ s sl, step s = some sl → sl.timeSec = f s) :
    ∀ k s, ∃ m, m ≤ k ∧
      ((wfLoop step s k).map fun sl => sl.timeSec) = (List.range m).map (fun j => f (s + j)) := by
  intro k
  induction k with
  | zero => intro s; exact ⟨0, le_refl 0, by simp [wfLoop]⟩
  | succ k ih =>
    intro s
    cases h : step s with
    | none => exact ⟨0, by omega, by simp [wfLoop, h]⟩
    | some sl =>
      obtain ⟨m, hmk, hmap⟩ := ih (s + 1)
      refine ⟨m + 1, by omega, ?_⟩
      simp only [wfLoop, h, List.map_cons, hmap, hf s sl h]
      rw [List.range_succ_eq_map, List.map_cons, List.map_map, Nat.add_zero]
      congr 1
      exact List.map_congr_left fun j hj => by
        show f (s + 1 + j) = f (s + (j + 1))
        rw [show s + (j + 1) = s + 1 + j from by omega]

lemma wfStep_ne_none (ir : List ℝ) (sampleRate : ℚ) (numSlices : ℕ)
    (totalSamples : ℤ) (fftSize : ℕ) (freqBins : List ℝ) (s : ℕ)
    (h : jround ((s : ℚ) / (numSlices : ℚ) * (totalSamples : ℚ)) < (ir.length : ℤ)) :
    wfStep ir sampleRate numSlices totalSamples fftSize freqBins s ≠ none := by
  simp only [wfStep]
  rw [if_neg (by omega :
    ¬((ir.length : ℤ) - jround ((s : ℚ) / (numSlices : ℚ) * (totalSamples : ℚ)) ≤ 0))]
  simp

lemma wfStep_timeSec (ir : List ℝ) (sampleRate : ℚ) (numSlices : ℕ)
    (totalSamples : ℤ) (fftSize : ℕ) (freqBins : List ℝ) (s : ℕ) (sl : WaterfallSlice)
    (h : wfStep ir sampleRate numSlices totalSamples fftSize freqBins s = some sl) :
    sl.timeSec =
      ((jround ((s : ℚ) / (numSlices : ℚ) * (totalSamples : ℚ)) : ℤ) : ℚ) / sampleRate := by
  simp only [wfStep] at h
  split at h
  · exact absurd h (by simp)
  · injection h with h
    rw [← h]

lemma jround_mono {q q' : ℚ} (h : q ≤ q') : jround q ≤ jround q' := by
  exact Int.floor_le_floor (by linarith)

lemma jround_intCast (z : ℤ) : jround (z : ℚ) = z := by
  rw [jround, Int.floor_int_add]
  norm_num

lemma computeWaterfall_shape (ir : List ℝ) (sampleRate : ℚ) (o : WaterfallOptions) :
    ∃ fftSize freqBins, (computeWaterfall ir sampleRate o).slices =
      wfLoop (wfStep ir sampleRate o.numSlices
        (min (jround (o.windowSec * sampleRate)) (ir.length : ℤ)) fftSize freqBins)
        0 o.numSlices :=
  ⟨_, _, rfl⟩

/-- C5 (amended): `computeWaterfall` returns at most `numSlices` slices;
it returns exactly `numSlices` slices whenever the requested window sample
count `Math.round(windowSec * sampleRate)` is non-negative and strictly
smaller than the IR length; and for a non-negative window and positive
sample rate the `timeSec` values are non-decreasing (equal consecutive
values do occur, so they are not strictly increasing, and the slice count
can fall short of `numSlices` even when the IR is not shorter than the
window). -/
theorem computeWaterfall_spec : ∀ (ir : List ℝ) (sampleRate : ℚ) (o : WaterfallOptions),
    (computeWaterfall ir sampleRate o).slices.length ≤ o.numSlices ∧
    (0 ≤ jround (o.windowSec * sampleRate) →
      jround (o.windowSec * sampleRate) < (ir.length : ℤ) →
      (computeWaterfall ir sampleRate o).slices.length = o.numSlices) ∧
    (0 ≤ o.windowSec * sampleRate → 0 < sampleRate →
      ((computeWaterfall ir sampleRate o).slices.map fun sl => sl.timeSec).Pairwise (· ≤ ·)) := by
  intro ir sampleRate o
  obtain ⟨fsz, fb, hsh⟩ := computeWaterfall_shape ir sampleRate o
  refine ⟨?_, ?_, ?_⟩
  · rw [hsh]
    exact wfLoop_length_le _ _ _
  · intro h0 hlt
    rcases Nat.eq_zero_or_pos o.numSlices with hn0 | hn
    · rw [hsh, hn0]
      simp [wfLoop]
    · rw [hsh]
      apply wfLoop_length_eq
      intro j hj
      rw [Nat.zero_add]
      apply wfStep_ne_none
      have hTj : min (jround (o.windowSec * sampleRate)) ((ir.length : ℕ) : ℤ) =
          jround (o.windowSec * sampleRate) := min_eq_left (by omega)
      have hfrac : ((j : ℚ) / (o.numSlices : ℚ)) ≤ 1 := by
        rw [div_le_one (by exact_mod_cast hn)]
        exact_mod_cast le_of_lt hj
      have hTpos : (0 : ℚ) ≤
          ((min (jround (o.windowSec * sampleRate)) ((ir.length : ℕ) : ℤ) : ℤ) : ℚ) := by
        rw [hTj]
        exact_mod_cast h0
      have hle : (j : ℚ) / (o.numSlices : ℚ) *
            ((min (jround (o.windowSec * sampleRate)) ((ir.length : ℕ) : ℤ) : ℤ) : ℚ) ≤
          ((min (jround (o.windowSec * sampleRate)) ((ir.length : ℕ) : ℤ) : ℤ) : ℚ) :=
        mul_le_of_le_one_left hTpos hfrac
      calc jround ((j : ℚ) / (o.numSlices : ℚ) *
            ((min (jround (o.windowSec * sampleRate)) ((ir.length : ℕ) : ℤ) : ℤ) : ℚ))
          ≤ jround (((min (jround (o.windowSec * sampleRate)) ((ir.length : ℕ) : ℤ) : ℤ) : ℚ)) :=
            jround_mono hle
        _ = min (jround (o.windowSec * sampleRate)) ((ir.length : ℕ) : ℤ) := jround_intCast _
        _ = jround (o.windowSec * sampleRate) := hTj
        _ < (ir.length : ℤ) := hlt
  · intro hw hsr
    have hT0 : (0 : ℚ) ≤
        ((min (jround (o.windowSec * sampleRate)) ((ir.length : ℕ) : ℤ) : ℤ) : ℚ) := by
      have hjr : 0 ≤ jround (o.windowSec * sampleRate) :=
        Int.floor_nonneg.mpr (by linarith)
      have hm : (0 : ℤ) ≤ min (jround (o.windowSec * sampleRate)) ((ir.length : ℕ) : ℤ) :=
        le_min hjr (by exact_mod_cast Nat.zero_le ir.length)
      exact_mod_cast hm
    obtain ⟨m, hm, hmap⟩ := wfLoop_timeSec_eq
      (wfStep ir sampleRate o.numSlices
        (min (jround (o.windowSec * sampleRate)) (ir.length : ℤ)) fsz fb)
      (fun s => ((jround ((s : ℚ) / (o.numSlices : ℚ) *
        ((min (jround (o.windowSec * sampleRate)) ((ir.length : ℕ) : ℤ) : ℤ) : ℚ)) : ℤ) : ℚ) /
        sampleRate)
      (fun s sl h => wfStep_timeSec _ _ _ _ _ _ _ _ h)
      o.numSlices 0
    rw [hsh, hmap]
    have hmono : ∀ s : ℕ, ((jround ((s : ℚ) / (o.numSlices : ℚ) *
          ((min (jround (o.windowSec * sampleRate)) ((ir.length : ℕ) : ℤ) : ℤ) : ℚ)) : ℤ) : ℚ) /
            sampleRate ≤
        ((jround (((s + 1 : ℕ) : ℚ) / (o.numSlices : ℚ) *
          ((min (jround (o.windowSec * sampleRate)) ((ir.length : ℕ) : ℤ) : ℤ) : ℚ)) : ℤ) : ℚ) /
            sampleRate := by
      intro s
      have hstep : (s : ℚ) / (o.numSlices : ℚ) ≤ ((s + 1 : ℕ) : ℚ) / (o.numSlices : ℚ) := by
        rcases Nat.eq_zero_or_pos o.numSlices with h0 | hpos
        · simp [h0]
        · gcongr
          linarith
      have hmul := mul_le_mul_of_nonneg_right hstep hT0
      have hjm := jround_mono hmul
      have hc : ((jround ((s : ℚ) / (o.numSlices : ℚ) *
            ((min (jround (o.windowSec * sampleRate)) ((ir.length : ℕ) : ℤ) : ℤ) : ℚ)) : ℤ) : ℚ) ≤
          ((jround (((s + 1 : ℕ) : ℚ) / (o.numSlices : ℚ) *
            ((min (jround (o.windowSec * sampleRate)) ((ir.length : ℕ) : ℤ) : ℤ) : ℚ)) : ℤ) : ℚ) := by
        exact_mod_cast hjm
      exact div_le_div_of_nonneg_right hc hsr.le
    refine List.Pairwise.map _ ?_ (List.pairwise_lt_range m)
    intro a b hab
    exact (monotone_nat_of_le_succ hmono) (by omega : 0 + a ≤ 0 + b)

/-- C5 counterexample: for `ir = [1, 0]`, `sampleRate = 1` and options
`{numSlices: 3, windowSec: 2}` the IR is not shorter than the requested
window (`round(2·1) = 2 = ir.length`), all 3 slices are produced, and their
`timeSec` values are `[0, 1, 1]`: slice starts `round(2s/3)` repeat, so the
times are not strictly increasing. -/
theorem computeWaterfall_timeSec_not_strict :
    ((computeWaterfall [1, 0] 1 ⟨3, 2, 200, 20, 15000⟩).slices.map fun sl => sl.timeSec)
      = [0, 1, 1] ∧
    ¬ ((computeWaterfall [1, 0] 1 ⟨3, 2, 200, 20, 15000⟩).slices.map
      fun sl => sl.timeSec).Pairwise (· < ·) := by
  obtain ⟨fsz, fb, hsh⟩ := computeWaterfall_shape [1, 0] 1 ⟨3, 2, 200, 20, 15000⟩
  have hT : min (jround ((⟨3, 2, 200, 20, 15000⟩ : WaterfallOptions).windowSec * 1))
      ((([1, 0] : List ℝ).length : ℤ)) = 2 := by
    show min (jround ((2 : ℚ) * 1)) ((2 : ℕ) : ℤ) = 2
    norm_num [jround]
  rw [hT] at hsh
  have hstep : ∀ j, j < 3 → wfStep [1, 0] 1 3 2 fsz fb (0 + j) ≠ none := by
    intro j hj
    rw [Nat.zero_add]
    apply wfStep_ne_none
    interval_cases j <;> norm_num [jround]
  have hlen : (wfLoop (wfStep [1, 0] 1 3 2 fsz fb) 0 3).length = 3 :=
    wfLoop_length_eq _ 3 0 hstep
  obtain ⟨m, hm3, hmap⟩ := wfLoop_timeSec_eq (wfStep [1, 0] 1 3 2 fsz fb)
    (fun s => ((jround ((s : ℚ) / ((3 : ℕ) : ℚ) * ((2 : ℤ) : ℚ)) : ℤ) : ℚ) / 1)
    (fun s sl h => wfStep_timeSec _ _ _ _ _ _ _ _ h) 3 0
  have hmeq : m = 3 := by
    have hl2 := congrArg List.length hmap
    rw [List.length_map, List.length_map, List.length_range, hlen] at hl2
    omega
  rw [hmeq] at hmap
  have hkey : ((computeWaterfall [1, 0] 1 ⟨3, 2, 200, 20, 15000⟩).slices.map
      fun sl => sl.timeSec) = [0, 1, 1] := by
    rw [hsh, hmap]
    norm_num [List.range_succ, jround]
  refine ⟨hkey, ?_⟩
  rw [hkey]
  norm_num [List.pairwise_cons]

/-! ## peaks.ts : resonance peak detection -/

/-- frequencyResponse.ts `FrequencyPoint`. -/
structure FrequencyPoint where
  freq : ℝ
  db : ℝ

/-- peaks.ts `FrequencyBand`. -/
structure FrequencyBand where
  label : String
  minHz : ℝ
  maxHz : ℝ

/-- peaks.ts `DetectedPeak`. -/
structure DetectedPeak where
  freq : ℝ
  db : ℝ
  prominence : ℝ
  index : ℕ
  band : Option String

/-- peaks.ts `DEFAULT_BANDS`. -/
def DEFAULT_BANDS : List FrequencyBand :=
  [⟨"Room modes", 20, 300⟩, ⟨"Mid / High", 300, 15000⟩]

/-- peaks.ts `PeakDetectionOptions` with its documented defaults. -/
structure PeakDetectionOptions where
  minProminence : ℝ := 3
  maxPeaks : ℕ := 10
  bands : List FrequencyBand := DEFAULT_BANDS

/-- One valley scan of peaks.ts `computeProminence`: walk the dB values in
visit order, lower the running valley at each point (the update runs before
the break test), and stop after the first point higher than the peak. -/
noncomputable def valleyScan (peakDb : ℝ) : List ℝ → ℝ → ℝ
  | [], acc => acc
  | d :: rest, acc =>
    let acc' := if d < acc then d else acc
    if peakDb < d then acc' else valleyScan peakDb rest acc'

/-- peaks.ts `computeProminence`: the left scan visits the points before the
peak in descending index order, the right scan the points after it. -/
noncomputable def computeProminence (points : List FrequencyPoint) (peakIdx : ℕ) : ℝ :=
  let peakDb := (points.getD peakIdx ⟨0, 0⟩).db
  let leftValley := valleyScan peakDb ((points.take peakIdx).reverse.map fun p => p.db) peakDb
  let rightValley := valleyScan peakDb ((points.drop (peakIdx + 1)).map fun p => p.db) peakDb
  peakDb - max leftValley rightValley

/-- peaks.ts `classifyBand`: first band with `minHz ≤ freq < maxHz`. -/
noncomputable def classifyBand (freq : ℝ) : List FrequencyBand → Option String
  | [] => none
  | band :: rest =>
    if band.minHz ≤ freq ∧ freq < band.maxHz then some band.label
    else classifyBand freq rest

/-- peaks.ts `detectPeaks`.  The `peaks.sort((a, b) => b.prominence -
a.prominence)` call is a stable descending sort, modelled by insertion
sort on `b.prominence ≤ a.prominence`. -/
noncomputable def detectPeaks (points : List FrequencyPoint)
    (options : PeakDetectionOptions) : List DetectedPeak :=
  if points.length < 3 then []
  else
    let candidates := ((List.range (points.length - 2)).map (· + 1)).filter fun i =>
      decide ((points.getD (i - 1) ⟨0, 0⟩).db < (points.getD i ⟨0, 0⟩).db) &&
      decide ((points.getD (i + 1) ⟨0, 0⟩).db < (points.getD i ⟨0, 0⟩).db)
    let peaks := candidates.filterMap fun i =>
      let prom := computeProminence points i
      if prom < options.minProminence then none
      else some ⟨(points.getD i ⟨0, 0⟩).freq, (points.getD i ⟨0, 0⟩).db, prom, i,
        classifyBand (points.getD i ⟨0, 0⟩).freq options.bands⟩
    (peaks.insertionSort fun a b => b.prominence ≤ a.prominence).take options.maxPeaks

/-- C6: `detectPeaks` returns `[]` on fewer than 3 points; otherwise the
result has at most `maxPeaks` entries, is sorted by prominence descending,
and every returned peak has prominence ≥ `minProminence`. -/
theorem detectPeaks_spec : ∀ (points : List FrequencyPoint) (options : PeakDetectionOptions),
    (points.length < 3 → detectPeaks points options = []) ∧
    (detectPeaks points options).length ≤ options.maxPeaks ∧
    List.Sorted (fun a b : DetectedPeak => b.prominence ≤ a.prominence)
      (detectPeaks points options) ∧
    (∀ p ∈ detectPeaks points options, options.minProminence ≤ p.prominence) := by
  intro points options
  haveI hTot : IsTotal DetectedPeak (fun a b => b.prominence ≤ a.prominence) :=
    ⟨fun a b => le_total b.prominence a.prominence⟩
  haveI hTrans : IsTrans DetectedPeak (fun a b => b.prominence ≤ a.prominence) :=
    ⟨fun a b c hab hbc => le_trans hbc hab⟩
  by_cases h3 : points.length < 3
  · refine ⟨fun _ => ?_, ?_, ?_, ?_⟩ <;> simp [detectPeaks, h3]
  · have hex : ∃ peaks : List DetectedPeak, detectPeaks points options =
        (List.insertionSort (fun a b : DetectedPeak => b.prominence ≤ a.prominence)
          peaks).take options.maxPeaks ∧
        ∀ p ∈ peaks, options.minProminence ≤ p.prominence := by
      exact ⟨_, by simp only [detectPeaks, if_neg h3]; rfl, by
        intro p hp
        obtain ⟨i, hi, hf⟩ := List.mem_filterMap.mp hp
        by_cases hc : computeProminence points i < options.minProminence
        · rw [if_pos hc] at hf
          exact absurd hf (by simp)
        · rw [if_neg hc] at hf
          injection hf with hf
          rw [← hf]
          exact le_of_not_lt hc⟩
    obtain ⟨peaks, hunf, hprom⟩ := hex
    refine ⟨fun hcon => absurd hcon h3, ?_, ?_, ?_⟩
    · rw [hunf]
      simp [List.length_take_le]
    · rw [hunf]
      exact List.Pairwise.sublist (List.take_sublist _ _) (List.sorted_insertionSort _ _)
    · intro p hp
      rw [hunf] at hp
      have hp2 := List.mem_of_mem_take hp
      exact hprom p ((List.perm_insertionSort
        (fun a b : DetectedPeak => b.prominence ≤ a.prominence) peaks).mem_iff.mp hp2)

/-! ## calibration.ts : calibration file parsing -/

/-- calibration.ts `CalibrationPoint`; parsed values are exact rationals. -/
structure CalibrationPoint where
  freq : ℚ
  db : ℚ
deriving DecidableEq

/-- calibration.ts `CalibrationData`. -/
structure CalibrationData where
  filename : String
  points : List CalibrationPoint
deriving DecidableEq

/-- JS `text.split(/\r?\n/)`: each newline ends a line and consumes one
directly preceding carriage return; a lone `\r` stays in its line. -/
def splitLinesAux : List Char → List Char → List (List Char)
  | [], acc => [acc.reverse]
  | '\r' :: '\n' :: rest, acc => acc.reverse :: splitLinesAux rest []
  | '\n' :: rest, acc => acc.reverse :: splitLinesAux rest []
  | c :: rest, acc => splitLinesAux rest (c :: acc)

def splitLines (l : List Char) : List (List Char) := splitLinesAux l []

/-- The ASCII whitespace recognised by both `String.prototype.trim` and the
`[\s,]` splitting class of calibration.ts: space, tab, newline, carriage
return, vertical tab, form feed. -/
def isJsWs (c : Char) : Bool :=
  c == ' ' || c == '\t' || c == '\n' || c == '\r' ||
  c == Char.ofNat 11 || c == Char.ofNat 12

/-- JS `String.prototype.trim`. -/
def jsTrim (l : List Char) : List Char :=
  ((l.dropWhile isJsWs).reverse.dropWhile isJsWs).reverse

def isSepChar (c : Char) : Bool := isJsWs c || c == ','

lemma length_dropWhile_le (p : Char → Bool) (l : List Char) :
    (l.dropWhile p).length ≤ l.length := by
  induction l with
  | nil => simp
  | cons c rest ih =>
    rw [List.dropWhile_cons]
    split
    · exact le_trans ih (by simp)
    · simp

/-- JS `line.split(/[\s,]+/)`: split on maximal runs of whitespace or commas;
a separator run touching either end of the string contributes an empty
token there, exactly as in JS. -/
def splitTokensAux : List Char → List Char → List (List Char)
  | [], acc => [acc.reverse]
  | c :: rest, acc =>
    if isSepChar c then acc.reverse :: splitTokensAux (rest.dropWhile isSepChar) []
    else splitTokensAux rest (c :: acc)
termination_by l _ => l.length
decreasing_by
  · have := length_dropWhile_le isSepChar rest
    simp only [List.length_cons]
    omega
  · simp only [List.length_cons]
    omega

def splitTokens (l : List Char) : List (List Char) := splitTokensAux l []

/-- The result of JS `Number(...)` on a string: a finite (exact) value,
a signed infinity, or NaN. -/
inductive JSNum where
  | finite (q : ℚ)
  | inf (pos : Bool)
  | nan
deriving DecidableEq

def digitsVal (l : List Char) : ℕ := l.foldl (fun a c => 10 * a + (c.toNat - 48)) 0

/-- Split at the first character matched by `p`, keeping the remainder. -/
def splitOnChar (p : Char → Bool) : List Char → List Char × Option (List Char)
  | [] => ([], none)
  | c :: rest =>
    if p c then ([], some rest)
    else
      let ab := splitOnChar p rest
      (c :: ab.1, ab.2)

/-- The exponent part of a JS decimal literal: optional sign, ≥ 1 digits. -/
def parseExp : List Char → Option ℤ
  | [] => none
  | '+' :: rest =>
    if rest ≠ [] ∧ rest.all Char.isDigit then some (digitsVal rest) else none
  | '-' :: rest =>
    if rest ≠ [] ∧ rest.all Char.isDigit then some (-(digitsVal rest : ℤ)) else none
  | l =>
    if l.all Char.isDigit then some (digitsVal l) else none

/-- JS `StrUnsignedDecimalLiteral`: `digits [. digits] [e[±]digits]` with at
least one mantissa digit; values are exact rationals. -/
def parseUnsignedDec (l : List Char) : Option ℚ :=
  let mantExp := splitOnChar (fun c => c == 'e' || c == 'E') l
  let ipFp := splitOnChar (fun c => c == '.') mantExp.1
  let mantOk : Bool := match ipFp.2 with
    | none => decide (ipFp.1 ≠ []) && ipFp.1.all Char.isDigit
    | some fp => (decide (ipFp.1 ≠ []) || decide (fp ≠ [])) &&
        ipFp.1.all Char.isDigit && fp.all Char.isDigit
  if mantOk then
    let base : ℚ := (digitsVal ipFp.1 : ℚ) +
      (match ipFp.2 with
        | none => 0
        | some fp => (digitsVal fp : ℚ) / 10 ^ fp.length)
    match mantExp.2 with
    | none => some base
    | some e => (parseExp e).map fun z => base * (10 : ℚ) ^ z
  else none

def hexDigitVal (c : Char) : Option ℕ :=
  if c.isDigit then some (c.toNat - 48)
  else if 'a' ≤ c ∧ c ≤ 'f' then some (c.toNat - 87)
  else if 'A' ≤ c ∧ c ≤ 'F' then some (c.toNat - 55)
  else none

def radixVal (base : ℕ) (l : List Char) : Option ℕ :=
  l.foldl (fun acc c => acc.bind fun a =>
    (hexDigitVal c).bind fun d => if d < base then some (base * a + d) else none) (some 0)

/-- JS hex/octal/binary literals (`0x…`, `0o…`, `0b…`); these admit no sign
and no exponent. -/
def parseRadix : List Char → Option ℚ
  | '0' :: c :: rest =>
    if c = 'x' ∨ c = 'X' then
      if rest ≠ [] then (radixVal 16 rest).map (fun n => (n : ℚ)) else none
    else if c = 'o' ∨ c = 'O' then
      if rest ≠ [] then (radixVal 8 rest).map (fun n => (n : ℚ)) else none
    else if c = 'b' ∨ c = 'B' then
      if rest ≠ [] then (radixVal 2 rest).map (fun n => (n : ℚ)) else none
    else none
  | _ => none

/-- An optionally signed decimal literal or `Infinity` (the only forms that
may carry a sign). -/
def jsSigned (l : List Char) (pos : Bool) : JSNum :=
  if l = "Infinity".data then .inf pos
  else match parseUnsignedDec l with
    | some q => .finite (if pos then q else -q)
    | none => .nan

/-- JS `Number(str)` on a whitespace-free string: `""` is 0; a sign may
precede a decimal literal or `Infinity`; unsigned inputs also admit
hex/octal/binary literals; everything else is NaN. -/
def jsNumber (l : List Char) : JSNum :=
  match l with
  | [] => .finite 0
  | '+' :: rest => jsSigned rest true
  | '-' :: rest => jsSigned rest false
  | _ =>
    if l = "Infinity".data then .inf true
    else match parseRadix l with
      | some q => .finite q
      | none => match parseUnsignedDec l with
        | some q => .finite q
        | none => .nan

/-- The per-line outcome of the parse loop of calibration.ts
`parseCalibrationFile`: `none` = the line throws, `some none` = the line is
skipped (blank or comment), `some (some p)` = the line yields point `p`. -/
def lineResult (l : List Char) : Option (Option CalibrationPoint) :=
  let line := jsTrim l
  if line = [] ∨ line.head? = some '#' ∨ line.head? = some '*' then some none
  else
    let parts := splitTokens line
    if parts.length < 2 then none
    else match jsNumber (parts.getD 0 []), jsNumber (parts.getD 1 []) with
      | .finite f, .finite d => if f ≤ 0 then none else some (some ⟨f, d⟩)
      | _, _ => none

/-- The parse loop of calibration.ts `parseCalibrationFile` over the split
lines, threading the 0-based line counter for the error messages. -/
def parsePoints : ℕ → List (List Char) → Except String (List CalibrationPoint)
  | _, [] => .ok []
  | lineNum, l :: rest =>
    let line := jsTrim l
    if line = [] ∨ line.head? = some '#' ∨ line.head? = some '*' then
      parsePoints (lineNum + 1) rest
    else
      let parts := splitTokens line
      if parts.length < 2 then
        let lineStr := String.mk line
        let n := lineNum + 1
        .error s!"Calibration file line {n}: expected \"freq dB\", got \"{lineStr}\""
      else
        match jsNumber (parts.getD 0 []) with
        | .finite f =>
          if f ≤ 0 then
            let tok := String.mk (parts.getD 0 [])
            let n := lineNum + 1
            .error s!"Calibration file line {n}: invalid frequency \"{tok}\""
          else
            match jsNumber (parts.getD 1 []) with
            | .finite d => (parsePoints (lineNum + 1) rest).map (⟨f, d⟩ :: ·)
            | _ =>
              let tok := String.mk (parts.getD 1 [])
              let n := lineNum + 1
              .error s!"Calibration file line {n}: invalid dB value \"{tok}\""
        | _ =>
          let tok := String.mk (parts.getD 0 [])
          let n := lineNum + 1
          .error s!"Calibration file line {n}: invalid frequency \"{tok}\""

/-- calibration.ts `parseCalibrationFile`: split into lines, parse the data
points, require at least 2, sort ascending by frequency (`Array.sort` with
a numeric comparator is a stable sort, modelled by insertion sort). -/
def parseCalibrationFile (text filename : String) : Except String CalibrationData :=
  match parsePoints 0 (splitLines text.data) with
  | .error e => .error e
  | .ok points =>
    if points.length < 2 then
      .error "Calibration file must contain at least 2 data points"
    else .ok ⟨filename, points.insertionSort fun a b => a.freq ≤ b.freq⟩

lemma parsePoints_badline (lineNum : ℕ) (l : List Char) (rest : List (List Char))
    (hPP : ∀ pts, parsePoints lineNum (l :: rest) ≠ .ok pts)
    (hLR : lineResult l = none) :
    (∀ pts, parsePoints lineNum (l :: rest) = .ok pts →
      pts = (l :: rest).filterMap (fun l => (lineResult l).getD none)) ∧
    ((∃ pts, parsePoints lineNum (l :: rest) = .ok pts) ↔
      ∀ l' ∈ l :: rest, lineResult l' ≠ none) := by
  refine ⟨?_, ?_, ?_⟩
  · intro pts h
    exact absurd h (hPP pts)
  · intro hex
    obtain ⟨pts, h⟩ := hex
    exact absurd h (hPP pts)
  · intro hall
    exact absurd hLR (hall l (List.mem_cons_self _ _))

lemma parsePoints_ok_iff_val : ∀ (lines : List (List Char)) (lineNum : ℕ),
    (∀ pts, parsePoints lineNum lines = .ok pts →
      pts = lines.filterMap (fun l => (lineResult l).getD none)) ∧
    ((∃ pts, parsePoints lineNum lines = .ok pts) ↔ ∀ l ∈ lines, lineResult l ≠ none) := by
  intro lines
  induction lines with
  | nil =>
    intro lineNum
    refine ⟨?_, ?_⟩
    · intro pts h
      simp only [parsePoints] at h
      injection h with h
      rw [← h]
      simp
    · simp [parsePoints]
  | cons l rest ih =>
    intro lineNum
    by_cases hC1 : jsTrim l = [] ∨ (jsTrim l).head? = some '#' ∨ (jsTrim l).head? = some '*'
    · have hPP : parsePoints lineNum (l :: rest) = parsePoints (lineNum + 1) rest := by
        simp only [parsePoints, if_pos hC1]
      have hLR : lineResult l = some none := by
        simp only [lineResult, if_pos hC1]
      refine ⟨?_, ?_, ?_⟩
      · intro pts h
        rw [hPP] at h
        rw [(ih (lineNum + 1)).1 pts h]
        simp [hLR]
      · intro hex l' hl'
        rcases List.mem_cons.mp hl' with rfl | hm
        · rw [hLR]; simp
        · rw [hPP] at hex
          exact ((ih (lineNum + 1)).2.mp hex) l' hm
      · intro hall
        rw [hPP]
        exact (ih (lineNum + 1)).2.mpr fun l' hl' => hall l' (List.mem_cons_of_mem _ hl')
    · by_cases hC2 : (splitTokens (jsTrim l)).length < 2
      · refine parsePoints_badline lineNum l rest ?_ ?_
        · intro pts hcon
          simp only [parsePoints, if_neg hC1, if_pos hC2] at hcon
          exact absurd hcon (by simp)
        · simp only [lineResult, if_neg hC1, if_pos hC2]
      · cases hf : jsNumber ((splitTokens (jsTrim l)).getD 0 []) with
        | finite f =>
          by_cases hle : f ≤ 0
          · refine parsePoints_badline lineNum l rest ?_ ?_
            · intro pts hcon
              simp only [parsePoints, if_neg hC1, if_neg hC2, hf, if_pos hle] at hcon
              exact absurd hcon (by simp)
            · cases hd : jsNumber ((splitTokens (jsTrim l)).getD 1 []) with
              | finite d => simp only [lineResult, if_neg hC1, if_neg hC2, hf, hd, if_pos hle]
              | inf b => simp only [lineResult, if_neg hC1, if_neg hC2, hf, hd]
              | nan => simp only [lineResult, if_neg hC1, if_neg hC2, hf, hd]
          · cases hd : jsNumber ((splitTokens (jsTrim l)).getD 1 []) with
            | finite d =>
              have hPP : parsePoints lineNum (l :: rest) =
                  (parsePoints (lineNum + 1) rest).map (⟨f, d⟩ :: ·) := by
                simp only [parsePoints, if_neg hC1, if_neg hC2, hf, hd, if_neg hle]
              have hLR : lineResult l = some (some ⟨f, d⟩) := by
                simp only [lineResult, if_neg hC1, if_neg hC2, hf, hd, if_neg hle]
              refine ⟨?_, ?_, ?_⟩
              · intro pts h
                rw [hPP] at h
                cases hrec : parsePoints (lineNum + 1) rest with
                | error e =>
                  rw [hrec] at h
                  exact absurd h (by simp [Except.map])
                | ok pts2 =>
                  rw [hrec] at h
                  simp only [Except.map] at h
                  injection h with h
                  rw [← h, (ih (lineNum + 1)).1 pts2 hrec]
                  simp [hLR]
              · intro hex l' hl'
                rcases List.mem_cons.mp hl' with rfl | hm
                · rw [hLR]; simp
                · obtain ⟨pts, h⟩ := hex
                  rw [hPP] at h
                  cases hrec : parsePoints (lineNum + 1) rest with
                  | error e =>
                    rw [hrec] at h
                    exact absurd h (by simp [Except.map])
                  | ok pts2 =>
                    exact ((ih (lineNum + 1)).2.mp ⟨pts2, hrec⟩) l' hm
              · intro hall
                obtain ⟨pts2, hrec⟩ := (ih (lineNum + 1)).2.mpr
                  fun l' hl' => hall l' (List.mem_cons_of_mem _ hl')
                exact ⟨⟨f, d⟩ :: pts2, by rw [hPP, hrec]; simp [Except.map]⟩
            | inf b =>
              refine parsePoints_badline lineNum l rest ?_ ?_
              · intro pts hcon
                simp only [parsePoints, if_neg hC1, if_neg hC2, hf, if_neg hle, hd] at hcon
                exact absurd hcon (by simp)
              · simp only [lineResult, if_neg hC1, if_neg hC2, hf, hd]
            | nan =>
              refine parsePoints_badline lineNum l rest ?_ ?_
              · intro pts hcon
                simp only [parsePoints, if_neg hC1, if_neg hC2, hf, if_neg hle, hd] at hcon
                exact absurd hcon (by simp)
              · simp only [lineResult, if_neg hC1, if_neg hC2, hf, hd]
        | inf b =>
          refine parsePoints_badline lineNum l rest ?_ ?_
          · intro pts hcon
            simp only [parsePoints, if_neg hC1, if_neg hC2, hf] at hcon
            exact absurd hcon (by simp)
          · cases hd : jsNumber ((splitTokens (jsTrim l)).getD 1 []) <;>
              simp only [lineResult, if_neg hC1, if_neg hC2, hf, hd]
        | nan =>
          refine parsePoints_badline lineNum l rest ?_ ?_
          · intro pts hcon
            simp only [parsePoints, if_neg hC1, if_neg hC2, hf] at hcon
            exact absurd hcon (by simp)
          · cases hd : jsNumber ((splitTokens (jsTrim l)).getD 1 []) <;>
              simp only [lineResult, if_neg hC1, if_neg hC2, hf, hd]

/-- C7: `parseCalibrationFile` succeeds exactly when no line throws (every
non-blank, non-comment line has ≥ 2 tokens, a finite positive frequency and
a finite dB value — `lineResult ≠ none`) and at least 2 data points are
collected; on success the returned points are sorted ascending by frequency
and number at least 2. -/
theorem parseCalibrationFile_spec : ∀ (text filename : String),
    ((parseCalibrationFile text filename).isOk = true ↔
      (∀ l ∈ splitLines text.data, lineResult l ≠ none) ∧
      2 ≤ ((splitLines text.data).filterMap (fun l => (lineResult l).getD none)).length) ∧
    (∀ d, parseCalibrationFile text filename = .ok d →
      List.Sorted (fun a b : CalibrationPoint => a.freq ≤ b.freq) d.points ∧
      2 ≤ d.points.length) := by
  intro text filename
  have hiv := parsePoints_ok_iff_val (splitLines text.data) 0
  constructor
  · constructor
    · intro hok
      cases hpp : parsePoints 0 (splitLines text.data) with
      | error e =>
        simp only [parseCalibrationFile, hpp] at hok
        exact absurd hok (by simp [Except.isOk, Except.toBool])
      | ok pts =>
        simp only [parseCalibrationFile, hpp] at hok
        by_cases h2 : pts.length < 2
        · rw [if_pos h2] at hok
          exact absurd hok (by simp [Except.isOk, Except.toBool])
        · refine ⟨hiv.2.mp ⟨pts, hpp⟩, ?_⟩
          have hval := hiv.1 pts hpp
          rw [← hval]
          omega
    · intro hc
      obtain ⟨hall, hcount⟩ := hc
      obtain ⟨pts, hpp⟩ := hiv.2.mpr hall
      have hval := hiv.1 pts hpp
      simp only [parseCalibrationFile, hpp]
      rw [if_neg (by rw [hval]; omega)]
      simp [Except.isOk, Except.toBool]
  · intro d hd
    cases hpp : parsePoints 0 (splitLines text.data) with
    | error e =>
      simp only [parseCalibrationFile, hpp] at hd
      exact absurd hd (by simp)
    | ok pts =>
      simp only [parseCalibrationFile, hpp] at hd
      by_cases h2 : pts.length < 2
      · rw [if_pos h2] at hd
        exact absurd hd (by simp)
      · rw [if_neg h2] at hd
        injection hd with hd
        rw [← hd]
        constructor
        · haveI : IsTotal CalibrationPoint (fun a b => a.freq ≤ b.freq) :=
            ⟨fun a b => le_total a.freq b.freq⟩
          haveI : IsTrans CalibrationPoint (fun a b => a.freq ≤ b.freq) :=
            ⟨fun a b c hab hbc => le_trans hab hbc⟩
          exact List.sorted_insertionSort _ _
        · have hperm := (List.perm_insertionSort
            (fun a b : CalibrationPoint => a.freq ≤ b.freq) pts).length_eq
          dsimp only
          omega

/-! ## calibration.ts : interpolation -/

/-- The `while (hi - lo > 1)` binary search of calibration.ts
`interpolateCalibration` (`(lo + hi) >> 1` is exact integer halving). -/
noncomputable def bsearchAux (calLogFreqs : List ℝ) (logFreq : ℝ) (lo hi : ℕ) : ℕ × ℕ :=
  if h : 1 < hi - lo then
    let mid := (lo + hi) / 2
    if calLogFreqs.getD mid 0 ≤ logFreq then bsearchAux calLogFreqs logFreq mid hi
    else bsearchAux calLogFreqs logFreq lo mid
  else (lo, hi)
termination_by hi - lo
decreasing_by
  · omega
  · omega

/-- calibration.ts `interpolateCalibration`: flat extrapolation outside the
calibration range, linear interpolation in log-frequency space inside. -/
noncomputable def interpolateCalibration (calibration : List CalibrationPoint)
    (targetFreqs : List ℝ) : List ℝ :=
  if calibration.length = 0 then targetFreqs.map fun _ => 0
  else
    let calLogFreqs := calibration.map fun p => Real.logb 10 ((p.freq : ℝ))
    let calDbs := calibration.map fun p => ((p.db : ℝ))
    targetFreqs.map fun freq =>
      let logFreq := Real.logb 10 freq
      if logFreq ≤ calLogFreqs.getD 0 0 then calDbs.getD 0 0
      else if calLogFreqs.getD (calLogFreqs.length - 1) 0 ≤ logFreq then
        calDbs.getD (calDbs.length - 1) 0
      else
        let lohi := bsearchAux calLogFreqs logFreq 0 (calLogFreqs.length - 1)
        let t := (logFreq - calLogFreqs.getD lohi.1 0) /
          (calLogFreqs.getD lohi.2 0 - calLogFreqs.getD lohi.1 0)
        calDbs.getD lohi.1 0 + t * (calDbs.getD lohi.2 0 - calDbs.getD lohi.1 0)

/-- C10 (implicit): on a single-point calibration list — which the spec's
CalibrationData (≥ 2 points) never produces — `interpolateCalibration`
returns that point's dB correction for every positive target frequency,
without throwing: each target hits one of the two flat-extrapolation
branches, both of which return `calDbs[0]`. -/
theorem interpolateCalibration_single (p : CalibrationPoint) (targetFreqs : List ℝ)
    (_hpos : ∀ f ∈ targetFreqs, 0 < f) :
    interpolateCalibration [p] targetFreqs = targetFreqs.map fun _ => ((p.db : ℝ)) := by
  simp only [interpolateCalibration]
  rw [if_neg (by simp)]
  refine List.map_congr_left fun freq hfreq => ?_
  simp only [List.map_cons, List.map_nil, List.length_cons, List.length_nil,
    List.getD_cons_zero, Nat.sub_self]
  by_cases h1 : Real.logb 10 freq ≤ Real.logb 10 ((p.freq : ℝ))
  · rw [if_pos h1]
  · rw [if_neg h1, if_pos (le_of_not_le h1)]

/-- C10 witness: a concrete single-point calibration evaluated at one
positive frequency. -/
theorem interpolateCalibration_single_witness :
    (∀ f ∈ ([50] : List ℝ), 0 < f) ∧
    interpolateCalibration [⟨100, 3⟩] [50] = [((3 : ℚ) : ℝ)] := by
  refine ⟨by norm_num, ?_⟩
  have h := interpolateCalibration_single ⟨100, 3⟩ [50] (by norm_num)
  simpa using h

/-- C1 witness: the round-trip identity instantiated at the concrete
length-2 signal [1, 2]. -/
theorem fft_ifft_roundtrip_witness :
    (([1, 2] : List ℝ).length = 2 ^ 1) ∧
    (fft [1, 2] (List.replicate ([1, 2] : List ℝ).length 0)).bind (fun p => ifft p.1 p.2) =
      .ok (([1, 2] : List ℝ), List.replicate ([1, 2] : List ℝ).length 0) :=
  ⟨by norm_num, fft_ifft_roundtrip 1 [1, 2] (by norm_num)⟩

end Resoscan
